/-
  Verification of the finance-cockpit mortgage scenario engine.

  Shallow embedding of src/domain/mortgage/{baseline,history,irr,scenarios}.ts.
  Conventions:
  - JS `number` arithmetic is modelled by exact rational arithmetic (ℚ); decimal
    literals of the source (1e-6, 0.01, 0.2) are read as the exact rationals
    1/1000000, 1/100, 1/5.
  - ISO date strings "YYYY-MM-DD" are modelled as (year, month, day) triples.
    For zero-padded four-digit-year dates, JS lexicographic string comparison
    coincides with comparison of the integer key year*10000 + month*100 + day,
    and string equality coincides with triple equality.
  - JS `Date` normalisation (Date.UTC / setUTCMonth) is modelled directly on
    calendar triples; for a valid input day (1..31) an overflowing day rolls
    into the following month by at most 3 days, which the model reproduces.
  - Fallible code returns `Except String`.
-/
import Mathlib

set_option autoImplicit false
set_option maxRecDepth 4000

namespace FinanceCockpit

/-- An ISO calendar date `YYYY-MM-DD`, modelled as a year/month/day triple. -/
structure ISODate where
  year : Int
  month : Int
  day : Int
  deriving DecidableEq, Repr

/-- Integer key whose order matches lexicographic order of the zero-padded
ISO string for dates with month in 1..12 and day in 1..31. -/
def ISODate.key (d : ISODate) : Int :=
  d.year * 10000 + d.month * 100 + d.day

/-- Number of days in a calendar month (1-based month), with the Gregorian
leap-year rule, as used by JS `Date` UTC arithmetic. -/
def daysInMonth (y m : Int) : Int :=
  if m = 1 ∨ m = 3 ∨ m = 5 ∨ m = 7 ∨ m = 8 ∨ m = 10 ∨ m = 12 then 31
  else if m = 4 ∨ m = 6 ∨ m = 9 ∨ m = 11 then 30
  else if (y % 4 = 0 ∧ y % 100 ≠ 0) ∨ y % 400 = 0 then 29
  else 28

/-- A structurally valid calendar date: month in range and day within the month. -/
def ISODate.Valid (d : ISODate) : Prop :=
  1 ≤ d.month ∧ d.month ≤ 12 ∧ 1 ≤ d.day ∧ d.day ≤ daysInMonth d.year d.month

instance (d : ISODate) : Decidable d.Valid := by
  unfold ISODate.Valid; infer_instance

theorem daysInMonth_bounds (y m : Int) : 28 ≤ daysInMonth y m ∧ daysInMonth y m ≤ 31 := by
  unfold daysInMonth
  split_ifs <;> norm_num

/--
Embedding of `addMonths` from src/domain/mortgage/baseline.ts.

The source parses the ISO date, builds `Date.UTC(year, month, day)` and calls
`setUTCMonth(month + offset)`.  Per the ECMAScript `MakeDay` semantics, the
month count is renormalised with floor-division / positive remainder and the
(unchanged) day-of-month is then counted from the first of the target month:
a day past the end of the target month rolls over into the following month
(never more than 3 days for a valid input day ≤ 31).  It does NOT clamp.
-/
def addMonths (base : ISODate) (offset : Int) : ISODate :=
  let t := 12 * base.year + (base.month - 1) + offset
  let y := t / 12
  let m := t % 12 + 1
  if base.day ≤ daysInMonth y m then ⟨y, m, base.day⟩
  else if m = 12 then ⟨y + 1, 1, base.day - daysInMonth y m⟩
  else ⟨y, m + 1, base.day - daysInMonth y m⟩

/--
Modelled from the spec sentence for `addMonths` (for refinement comparison
only): "adds a month offset to an ISO date, clamping the day-of-month to the
last valid day of the target month".
-/
def addMonthsClamped (base : ISODate) (offset : Int) : ISODate :=
  let t := 12 * base.year + (base.month - 1) + offset
  let y := t / 12
  let m := t % 12 + 1
  ⟨y, m, min base.day (daysInMonth y m)⟩

/--
Embedding of `clampDay` from src/domain/mortgage/scenarios.ts: the ISO date for
(year, month, day) with an out-of-range day replaced by the last day of the
month (the JS source detects the `Date.UTC` month rollover and backs up to
day 0 of the following month).  Faithful for the source's domain of
1-based months 1..12 and day arguments ≤ 59.
-/
def clampDay (y m day : Int) : ISODate :=
  if 1 ≤ day ∧ day ≤ daysInMonth y m then ⟨y, m, day⟩
  else ⟨y, m, daysInMonth y m⟩

/-- Day count since 1970-01-01 of a (valid) civil date, as used by the
millisecond arithmetic of the biweekly pattern expansion (time values divided
by 86400000).  Standard civil-calendar counting. -/
def daysFromCivil (date : ISODate) : Int :=
  let y := if date.month ≤ 2 then date.year - 1 else date.year
  let era := y / 400
  let yoe := y - era * 400
  let mp := (date.month + 9) % 12
  let doy := (153 * mp + 2) / 5 + date.day - 1
  let doe := yoe * 365 + yoe / 4 - yoe / 100 + doy
  era * 146097 + doe - 719468

/-- Inverse of `daysFromCivil`: the civil date of a day count since 1970-01-01,
as produced by `getUTCFullYear`/`getUTCMonth`/`getUTCDate` on a JS time value. -/
def civilFromDays (z : Int) : ISODate :=
  let z' := z + 719468
  let era := z' / 146097
  let doe := z' - era * 146097
  let yoe := (doe - doe / 1460 + doe / 36524 - doe / 146096) / 365
  let y := yoe + era * 400
  let doy := doe - (365 * yoe + yoe / 4 - yoe / 100)
  let mp := (5 * doy + 2) / 153
  let d := doy - (153 * mp + 2) / 5 + 1
  let m := mp + (if mp < 10 then 3 else -9)
  ⟨if m ≤ 2 then y + 1 else y, m, d⟩

-- ---------- Data model (src/domain/mortgage/types.ts) ----------

/-- Monetary amounts; JS doubles are modelled by exact rationals. -/
abbrev Money := ℚ

/-- One row of an amortization schedule. -/
structure AmortizationEntry where
  date : ISODate
  payment : Money
  interest : Money
  principal : Money
  remaining : Money
  deriving DecidableEq, Repr

/-- Original contractual loan terms. -/
structure MortgageOriginalTerms where
  principal : Money
  annualRate : ℚ
  termMonths : ℕ
  startDate : ISODate
  deriving DecidableEq, Repr

/-- A historical extra-principal payment (the optional note is irrelevant to
the computation and omitted). -/
structure PastPrepayment where
  date : ISODate
  amount : Money
  deriving DecidableEq, Repr

abbrev PastPrepaymentLog := List PastPrepayment

structure MortgageBaselineResult where
  schedule : List AmortizationEntry
  totalInterest : Money
  payoffDate : ISODate
  deriving DecidableEq, Repr

structure MortgageHistoryResult where
  schedule : List AmortizationEntry
  totalInterest : Money
  payoffDate : ISODate
  deriving DecidableEq, Repr

-- ---------- Baseline amortizer (src/domain/mortgage/baseline.ts) ----------

/-- Embedding of `computeMonthlyPayment`: the fixed contractual monthly payment
for a standard amortizing loan via the annuity formula. -/
def computeMonthlyPayment (terms : MortgageOriginalTerms) : Except String Money :=
  if terms.principal ≤ 0 then .error "principal must be positive"
  else if terms.termMonths = 0 then .error "termMonths must be positive"
  else
    let monthlyRate := terms.annualRate / 12
    if monthlyRate = 0 then .ok (terms.principal / terms.termMonths)
    else
      .ok (terms.principal * monthlyRate * (1 + monthlyRate) ^ terms.termMonths /
        ((1 + monthlyRate) ^ terms.termMonths - 1))

/-- The epsilon used by the baseline and history loops (source literal 1e-6). -/
def schedEps : ℚ := 1 / 1000000

/-- The iteration of `computeBaselineMortgage`: index-carrying structural
recursion on the remaining fuel (`termMonths - i`).  The loop runs while
`i < termMonths` and `remaining > epsilon`. -/
def baselineLoop (startDate : ISODate) (r payment : ℚ) :
    ℕ → ℕ → ℚ → List AmortizationEntry
  | 0, _, _ => []
  | fuel + 1, i, remaining =>
    if remaining ≤ schedEps then []
    else
      let date := addMonths startDate i
      let interest := if 0 < r then remaining * r else 0
      let principal := payment - interest
      let remaining' := max 0 (remaining - principal)
      { date := date, payment := payment, interest := interest,
        principal := principal, remaining := remaining' } ::
        baselineLoop startDate r payment fuel (i + 1) remaining'

/-- Embedding of `computeBaselineMortgage`. -/
def computeBaselineMortgage (terms : MortgageOriginalTerms) :
    Except String MortgageBaselineResult := do
  let payment ← computeMonthlyPayment terms
  let r := terms.annualRate / 12
  let schedule := baselineLoop terms.startDate r payment terms.termMonths 0 terms.principal
  let totalInterest := (schedule.map (fun e => e.interest)).sum
  let payoffDate := ((schedule.getLast?).map (fun e => e.date)).getD terms.startDate
  pure { schedule := schedule, totalInterest := totalInterest, payoffDate := payoffDate }

-- ---------- History amortizer (src/domain/mortgage/history.ts) ----------

/-- The date order used throughout the source: lexicographic comparison of the
zero-padded ISO strings, i.e. comparison of the integer date keys. -/
def dateLE (a b : ISODate) : Prop := a.key ≤ b.key

instance : DecidableRel dateLE := fun a b => by unfold dateLE; infer_instance

/-- The prepayments due at the current period date: the leading run of the
sorted cursor whose dates are on or before `d` (the source's while-loop over
`prepayIndex`). -/
def dueAt (d : ISODate) (pending : List PastPrepayment) : List PastPrepayment :=
  pending.takeWhile (fun p => decide (dateLE p.date d))

def notDueAt (d : ISODate) (pending : List PastPrepayment) : List PastPrepayment :=
  pending.dropWhile (fun p => decide (dateLE p.date d))

/-- One iteration of the `computeMortgageWithPrepayments` loop body: accrues
interest, checks for negative amortization, consumes the due prepayments from
the date-sorted cursor, applies the remaining-balance cap, and produces the
schedule entry together with the not-yet-consumed cursor suffix. -/
def historyStep (startDate : ISODate) (r payment : ℚ) (i : ℕ) (remaining : ℚ)
    (pending : List PastPrepayment) :
    Except String (AmortizationEntry × List PastPrepayment) :=
  let date := addMonths startDate i
  let interest := if 0 < r then remaining * r else 0
  let principal := payment - interest
  if principal < 0 then .error "Monthly payment too low to amortize the loan."
  else
    let extra := ((dueAt date pending).map (fun p => p.amount)).sum
    let totalPrincipal0 := principal + extra
    let totalPrincipal := if remaining < totalPrincipal0 then remaining else totalPrincipal0
    let principal' := if remaining < totalPrincipal0 then max 0 (totalPrincipal - extra) else principal
    let remaining' := max 0 (remaining - totalPrincipal)
    .ok ({ date := date, payment := payment + extra, interest := interest,
           principal := principal', remaining := remaining' }, notDueAt date pending)

/-- The iteration of `computeMortgageWithPrepayments`: like `baselineLoop` but
with a date-sorted prepayment cursor (carried as the not-yet-consumed suffix),
the negative-amortization check, and the remaining-balance cap. -/
def historyLoop (startDate : ISODate) (r payment : ℚ) :
    ℕ → ℕ → ℚ → List PastPrepayment → Except String (List AmortizationEntry)
  | 0, _, _, _ => .ok []
  | fuel + 1, i, remaining, pending =>
    if remaining ≤ schedEps then .ok []
    else do
      let st ← historyStep startDate r payment i remaining pending
      let rest ← historyLoop startDate r payment fuel (i + 1) st.1.remaining st.2
      pure (st.1 :: rest)

/-- Embedding of `computeMortgageWithPrepayments`.  The source sorts a copy of
the prepayment log by date (string compare); ties between equal dates only
ever enter the computation through run sums, so the insertion sort used here
is observationally equivalent to the source's sort. -/
def computeMortgageWithPrepayments (terms : MortgageOriginalTerms)
    (prepayments : PastPrepaymentLog) : Except String MortgageHistoryResult := do
  let payment ← computeMonthlyPayment terms
  let sorted := prepayments.insertionSort (fun a b => dateLE a.date b.date)
  let r := terms.annualRate / 12
  let schedule ← historyLoop terms.startDate r payment terms.termMonths 0 terms.principal sorted
  let totalInterest := (schedule.map (fun e => e.interest)).sum
  let payoffDate := ((schedule.getLast?).map (fun e => e.date)).getD terms.startDate
  pure { schedule := schedule, totalInterest := totalInterest, payoffDate := payoffDate }

-- ---------- Effective-rate solver (src/domain/mortgage/irr.ts) ----------

/-- Net present value of a cashflow vector at a monthly discount rate:
`npv(r) = Σ CF_t / (1+r)^t`. -/
def npv (cashflows : List ℚ) (rateMonthly : ℚ) : ℚ :=
  (List.zipWith (fun cf t => cf / (1 + rateMonthly) ^ t)
    cashflows (List.range cashflows.length)).sum

/-- The 60-iteration bisection of `computeEffectiveAnnualRateFromSchedule`,
carrying the bracket `(lo, hi)`.  `npvLo` is the sign reference `npv(0)`
captured once before the loop, exactly as in the source. -/
def bisect (f : ℚ → ℚ) (npvLo : ℚ) : ℕ → ℚ × ℚ → ℚ × ℚ
  | 0, lh => lh
  | n + 1, (lo, hi) =>
    let mid := (lo + hi) / 2
    let fMid := f mid
    if fMid = 0 then (mid, mid)
    else if 0 < fMid * npvLo then bisect f npvLo n (mid, hi)
    else bisect f npvLo n (lo, mid)

/-- Embedding of `computeEffectiveAnnualRateFromSchedule`: cashflows
`[+principal, -payment_1, ...]`, bisection of the monthly rate over [0, 0.2],
annualized as `(1+r)^12 - 1`; returns 0 when NPV does not change sign over
the bracket. -/
def computeEffectiveAnnualRateFromSchedule (schedule : List AmortizationEntry)
    (principal : Money) : Except String ℚ :=
  if schedule.isEmpty then .error "Schedule is empty"
  else if principal ≤ 0 then .error "principal must be positive"
  else
    let cashflows := principal :: schedule.map (fun e => -e.payment)
    let f := npv cashflows
    let npvLo := f 0
    let npvHi := f (1 / 5)
    if 0 < npvLo * npvHi then .ok 0
    else
      let lh := bisect f npvLo 60 (0, 1 / 5)
      let rMonthly := (lh.1 + lh.2) / 2
      .ok ((1 + rMonthly) ^ 12 - 1)

-- ---------- Scenario engine (src/domain/mortgage/scenarios.ts) ----------

/-- The tagged union of future extra-payment patterns.  The two values of
`dayOfMonthStrategy` are modelled by the Boolean `sameAsDueDate`. -/
inductive ScenarioPattern where
  | oneTime (amount : Money) (date : ISODate)
  | monthly (amount : Money) (startDate : ISODate) (untilDate : Option ISODate)
      (sameAsDueDate : Bool) (specificDayOfMonth : Option Int)
  | yearly (amount : Money) (month day : Int) (firstYear : Int) (lastYear : Option Int)
  | biweekly (amount : Money) (anchorDate : ISODate) (startDate : Option ISODate)
      (untilDate : Option ISODate)
  deriving DecidableEq, Repr

def ScenarioPattern.amount : ScenarioPattern → Money
  | .oneTime a _ => a
  | .monthly a _ _ _ _ => a
  | .yearly a _ _ _ _ => a
  | .biweekly a _ _ _ => a

structure MortgageScenarioConfig where
  id : String
  name : String
  active : Bool
  patterns : List ScenarioPattern
  deriving DecidableEq, Repr

structure MortgageScenarioContext where
  terms : MortgageOriginalTerms
  pastPrepayments : PastPrepaymentLog
  asOfDate : ISODate
  deriving DecidableEq, Repr

/-- The extra-principal-by-date map.  A JS `Map` with ISO-string keys is an
insertion-ordered association list with in-place update on existing keys. -/
abbrev ExtraMap := List (ISODate × Money)

def mapGet (m : ExtraMap) (k : ISODate) : Option Money :=
  (m.find? (fun e => decide (e.1 = k))).map (fun e => e.2)

def mapSet (m : ExtraMap) (k : ISODate) (v : Money) : ExtraMap :=
  if m.any (fun e => decide (e.1 = k)) then
    m.map (fun e => if e.1 = k then (k, v) else e)
  else m ++ [(k, v)]

/-- Embedding of the inner `addExtra` closure of `buildExtraByDateMap`:
discards non-positive amounts, dates on or before the as-of date, and dates
strictly after the payoff date; otherwise adds into the running sum. -/
def addExtra (asOf payoff : ISODate) (m : ExtraMap) (date : ISODate)
    (amount : Money) : ExtraMap :=
  if amount ≤ 0 then m
  else if dateLE date asOf then m
  else if ¬ dateLE date payoff then m
  else mapSet m date (((mapGet m date).getD 0) + amount)

/-- The monthly-pattern walk over the baseline schedule, with the source's
continue/break control flow. -/
def monthlyWalk (amount : Money) (start payoff : ISODate) (untilDate : Option ISODate)
    (sameAsDueDate : Bool) (day : Int) :
    List AmortizationEntry → List (ISODate × Money)
  | [] => []
  | e :: rest =>
    if dateLE e.date start then
      monthlyWalk amount start payoff untilDate sameAsDueDate day rest
    else if ¬ dateLE e.date payoff then []
    else
      let target :=
        if sameAsDueDate then e.date
        else clampDay e.date.year e.date.month day
      if (match untilDate with
          | some u => ! decide (dateLE target u)
          | none => false : Bool) then
        monthlyWalk amount start payoff untilDate sameAsDueDate day rest
      else
        (target, amount) :: monthlyWalk amount start payoff untilDate sameAsDueDate day rest

/-- The yearly-pattern walk over candidate years, with continue/break flow. -/
def yearlyWalk (amount : Money) (month day : Int) (asOf payoff : ISODate) :
    List Int → List (ISODate × Money)
  | [] => []
  | y :: rest =>
    let date := clampDay y month day
    if dateLE date asOf then yearlyWalk amount month day asOf payoff rest
    else if ¬ dateLE date payoff then []
    else (date, amount) :: yearlyWalk amount month day asOf payoff rest

/-- The biweekly 14-day stepping walk over epoch day counts. -/
def biweeklyWalk (amount : Money) (startB limit : Int) (asOf : ISODate) :
    ℕ → Int → List (ISODate × Money)
  | 0, _ => []
  | fuel + 1, current =>
    if limit < current then []
    else
      let iso := civilFromDays current
      (if startB ≤ current ∧ asOf.key < iso.key then [(iso, amount)] else []) ++
        biweeklyWalk amount startB limit asOf fuel (current + 14)

/-- The sequence of `addExtra` calls a single pattern performs, in order. -/
def patternCandidates (baseline : MortgageBaselineResult)
    (context : MortgageScenarioContext) (pattern : ScenarioPattern) :
    List (ISODate × Money) :=
  let asOf := context.asOfDate
  let payoff := baseline.payoffDate
  let dueDay := context.terms.startDate.day
  match pattern with
  | .oneTime amount date => [(date, amount)]
  | .monthly amount startDate untilDate sameAsDueDate specificDayOfMonth =>
    let start := if asOf.key < startDate.key then startDate else asOf
    monthlyWalk amount start payoff untilDate sameAsDueDate
      (specificDayOfMonth.getD dueDay) baseline.schedule
  | .yearly amount month day firstYear lastYear =>
    let firstY := max firstYear context.asOfDate.year
    let lastY := lastYear.getD (payoff.year + 1)
    let years := (List.range (lastY + 1 - firstY).toNat).map (fun k => firstY + k)
    yearlyWalk amount month day asOf payoff years
  | .biweekly amount anchorDate startDate untilDate =>
    let anchor := daysFromCivil anchorDate
    let limitDate :=
      match untilDate with
      | some u => if u.key < payoff.key then u else payoff
      | none => payoff
    let limit := daysFromCivil limitDate
    let startB := daysFromCivil
      (match startDate with
       | some s => if asOf.key < s.key then s else asOf
       | none => asOf)
    biweeklyWalk amount startB limit asOf ((limit - anchor).toNat / 14 + 1) anchor

/-- Embedding of `buildExtraByDateMap`: expands every non-no-op pattern to its
candidate (date, amount) pairs and folds them through `addExtra`. -/
def buildExtraByDateMap (baseline : MortgageBaselineResult)
    (context : MortgageScenarioContext) (patterns : List ScenarioPattern) : ExtraMap :=
  patterns.foldl
    (fun m p =>
      if p.amount ≤ 0 then m
      else
        (patternCandidates baseline context p).foldl
          (fun m c => addExtra context.asOfDate baseline.payoffDate m c.1 c.2) m)
    []

-- ---------- Future simulation from as-of ----------

structure FutureSimulationResult where
  futureSchedule : List AmortizationEntry
  totalInterestFuture : Money
  deriving DecidableEq, Repr

/-- The payoff threshold of the future simulation (source literal 0.01). -/
def futureEps : ℚ := 1 / 100

/-- One iteration of the `simulateFutureFromAsOf` while-loop body: accrues
interest, checks that the contractual payment makes progress, applies the
per-date extra and the remaining-balance cap, and produces the schedule
entry. -/
def futureStep (monthlyPayment r : ℚ) (effectiveAsOf : ISODate) (extraByDate : ExtraMap)
    (step : ℕ) (remaining : ℚ) : Except String AmortizationEntry :=
  let date := addMonths effectiveAsOf step
  let interest := if 0 < r then remaining * r else 0
  let principal := monthlyPayment - interest
  if principal ≤ 0 then .error "Monthly payment is too small to amortize the loan."
  else
    let extra := (mapGet extraByDate date).getD 0
    let totalPrincipal0 := principal + extra
    let totalPrincipal := if remaining < totalPrincipal0 then remaining else totalPrincipal0
    let payment := interest + totalPrincipal
    let remaining' := max 0 (remaining - totalPrincipal)
    .ok { date := date, payment := payment, interest := interest,
          principal := totalPrincipal, remaining := remaining' }

/-- The while-loop of `simulateFutureFromAsOf`, structural on the remaining
step budget.  Returns the produced entries together with the remaining
balance at loop exit (needed for the convergence check). -/
def futureLoop (monthlyPayment r : ℚ) (effectiveAsOf : ISODate) (extraByDate : ExtraMap) :
    ℕ → ℕ → ℚ → Except String (List AmortizationEntry × ℚ)
  | 0, _, remaining => .ok ([], remaining)
  | fuel + 1, step, remaining =>
    if remaining ≤ futureEps then .ok ([], remaining)
    else do
      let e ← futureStep monthlyPayment r effectiveAsOf extraByDate step remaining
      let sr ← futureLoop monthlyPayment r effectiveAsOf extraByDate fuel (step + 1) e.remaining
      pure (e :: sr.1, sr.2)

/-- Embedding of `simulateFutureFromAsOf`: continues the loan from the as-of
point, stepping monthly from `effectiveAsOf + 1`, with a safety cap of
`termMonths + 600` steps and a convergence error when the cap is exhausted
while the balance is still above 0.01. -/
def simulateFutureFromAsOf (terms : MortgageOriginalTerms) (remainingAtAsOf : Money)
    (effectiveAsOf : ISODate) (extraByDate : ExtraMap) :
    Except String FutureSimulationResult := do
  let monthlyPayment ← computeMonthlyPayment terms
  let r := terms.annualRate / 12
  let maxSteps := terms.termMonths + 600
  let sr ← futureLoop monthlyPayment r effectiveAsOf extraByDate maxSteps 1 remainingAtAsOf
  if futureEps < sr.2 then .error "Future simulation did not converge."
  else
    pure { futureSchedule := sr.1,
           totalInterestFuture := (sr.1.map (fun e => e.interest)).sum }

-- ---------- Scenario runner ----------

/-- Embedding of `sliceScheduleUpTo`: the entries up to and including the
as-of date (the source scans forward and breaks at the first later entry,
i.e. takes the longest all-due leading run), the index of the last included
entry (-1 when none), and the effective as-of date. -/
def sliceScheduleUpTo (schedule : List AmortizationEntry) (asOfDate : ISODate) :
    Except String (List AmortizationEntry × Int × ISODate) :=
  match schedule with
  | [] => .error "Schedule is empty"
  | first :: _ =>
    let slice := schedule.takeWhile (fun e => decide (dateLE e.date asOfDate))
    match slice.getLast? with
    | none => .ok ([], -1, first.date)
    | some last => .ok (slice, (slice.length : Int) - 1, last.date)

/-- The loan state at the as-of pivot derived in phase 1 of
`runMortgageScenarios` (lines 447-466 of scenarios.ts). -/
structure AsOfState where
  pastSchedule : List AmortizationEntry
  effectiveAsOf : ISODate
  remainingAtAsOf : Money
  interestSoFar : Money
  monthsSoFar : ℕ
  deriving DecidableEq, Repr

def asOfState (terms : MortgageOriginalTerms) (schedule : List AmortizationEntry)
    (asOfDate : ISODate) : Except String AsOfState := do
  let sle ← sliceScheduleUpTo schedule asOfDate
  match (sle.1.getLast?) with
  | none =>
    pure { pastSchedule := [], effectiveAsOf := sle.2.2,
           remainingAtAsOf := terms.principal, interestSoFar := 0, monthsSoFar := 0 }
  | some lastEntry =>
    pure { pastSchedule := sle.1, effectiveAsOf := sle.2.2,
           remainingAtAsOf := lastEntry.remaining,
           interestSoFar := (sle.1.map (fun e => e.interest)).sum,
           monthsSoFar := sle.1.length }

structure MortgageScenarioSummary where
  scenarioId : String
  scenarioName : String
  schedule : List AmortizationEntry
  totalInterest : Money
  payoffDate : ISODate
  effectiveAnnualRate : Option ℚ
  interestSavedVsBaseline : Money
  monthsSavedVsBaseline : Int
  interestSavedVsActual : Money
  monthsSavedVsActual : Int
  deriving DecidableEq, Repr

structure MortgageScenarioRunResult where
  asOfDate : ISODate
  effectiveAsOfDate : ISODate
  baseline : MortgageBaselineResult
  actual : MortgageHistoryResult
  actualInterestSoFar : Money
  actualMonthsSoFar : ℕ
  scenarios : List MortgageScenarioSummary
  deriving DecidableEq, Repr

/-- The per-scenario phase of `runMortgageScenarios`: inactive configs and
configs without patterns are skipped; every other config is simulated. -/
def scenarioLoop (context : MortgageScenarioContext)
    (baseline : MortgageBaselineResult) (st : AsOfState)
    (actualFullSchedule : List AmortizationEntry) (actualTotalInterest : Money) :
    List MortgageScenarioConfig → Except String (List MortgageScenarioSummary)
  | [] => .ok []
  | config :: rest =>
    if ¬ config.active then
      scenarioLoop context baseline st actualFullSchedule actualTotalInterest rest
    else if config.patterns.isEmpty then
      scenarioLoop context baseline st actualFullSchedule actualTotalInterest rest
    else do
      let extraByDate := buildExtraByDateMap baseline context config.patterns
      let future ← simulateFutureFromAsOf context.terms st.remainingAtAsOf
        st.effectiveAsOf extraByDate
      let scenarioSchedule := st.pastSchedule ++ future.futureSchedule
      let scenarioTotalInterest := st.interestSoFar + future.totalInterestFuture
      let payoffDate :=
        ((scenarioSchedule.getLast?).map (fun e => e.date)).getD baseline.payoffDate
      let effectiveRate ←
        if scenarioSchedule.isEmpty then pure none
        else do
          let er ← computeEffectiveAnnualRateFromSchedule scenarioSchedule
            context.terms.principal
          pure (some er)
      let summary : MortgageScenarioSummary :=
        { scenarioId := config.id, scenarioName := config.name,
          schedule := scenarioSchedule, totalInterest := scenarioTotalInterest,
          payoffDate := payoffDate, effectiveAnnualRate := effectiveRate,
          interestSavedVsBaseline := baseline.totalInterest - scenarioTotalInterest,
          monthsSavedVsBaseline :=
            (baseline.schedule.length : Int) - scenarioSchedule.length,
          interestSavedVsActual := actualTotalInterest - scenarioTotalInterest,
          monthsSavedVsActual :=
            (actualFullSchedule.length : Int) - scenarioSchedule.length }
      let restSummaries ← scenarioLoop context baseline st actualFullSchedule
        actualTotalInterest rest
      pure (summary :: restSummaries)

/-- Embedding of `runMortgageScenarios`. -/
def runMortgageScenarios (context : MortgageScenarioContext)
    (scenarioConfigs : List MortgageScenarioConfig) :
    Except String MortgageScenarioRunResult := do
  let baseline ← computeBaselineMortgage context.terms
  let actual ← computeMortgageWithPrepayments context.terms context.pastPrepayments
  let st ← asOfState context.terms actual.schedule context.asOfDate
  let actualFuture ← simulateFutureFromAsOf context.terms st.remainingAtAsOf
    st.effectiveAsOf []
  let actualFullSchedule := st.pastSchedule ++ actualFuture.futureSchedule
  let actualTotalInterest := st.interestSoFar + actualFuture.totalInterestFuture
  let actualPayoffDate :=
    ((actualFullSchedule.getLast?).map (fun e => e.date)).getD baseline.payoffDate
  let _actualEffectiveRate ←
    if actualFullSchedule.isEmpty then pure none
    else do
      let er ← computeEffectiveAnnualRateFromSchedule actualFullSchedule
        context.terms.principal
      pure (some er)
  let scenarioSummaries ← scenarioLoop context baseline st actualFullSchedule
    actualTotalInterest scenarioConfigs
  pure { asOfDate := context.asOfDate, effectiveAsOfDate := st.effectiveAsOf,
         baseline := baseline,
         actual := { schedule := actualFullSchedule,
                     totalInterest := actualTotalInterest,
                     payoffDate := actualPayoffDate },
         actualInterestSoFar := st.interestSoFar,
         actualMonthsSoFar := st.monthsSoFar,
         scenarios := scenarioSummaries }

-- ---------- Calendar lemmas ----------

/-- The month counter underlying `addMonths`. -/
def monthCount (base : ISODate) (offset : Int) : Int :=
  12 * base.year + (base.month - 1) + offset

/-- The date key of the first day of the month designated by a month counter,
minus one: year and month contribution of the key. -/
def monthKeyAux (t : Int) : Int :=
  (t / 12) * 10000 + (t % 12 + 1) * 100

theorem monthKeyAux_succ (t : Int) :
    monthKeyAux t + 100 ≤ monthKeyAux (t + 1) ∧
      monthKeyAux (t + 1) ≤ monthKeyAux t + 8900 := by
  unfold monthKeyAux
  omega

/-- The key of an `addMonths` result, characterised by whether the day of the
base date fits in the target month (no roll) or overflows into the next
month (roll). -/
theorem addMonths_key_cases (base : ISODate) (offset : Int) :
    (base.day ≤ daysInMonth (monthCount base offset / 12) (monthCount base offset % 12 + 1) ∧
      (addMonths base offset).key = monthKeyAux (monthCount base offset) + base.day) ∨
    (daysInMonth (monthCount base offset / 12) (monthCount base offset % 12 + 1) < base.day ∧
      (addMonths base offset).key = monthKeyAux (monthCount base offset + 1) +
        (base.day - daysInMonth (monthCount base offset / 12) (monthCount base offset % 12 + 1))) := by
  unfold addMonths monthCount monthKeyAux
  dsimp only
  set t := 12 * base.year + (base.month - 1) + offset with ht
  split_ifs with h1 h2
  · left
    exact ⟨h1, rfl⟩
  · right
    refine ⟨by omega, ?_⟩
    simp only [ISODate.key]
    omega
  · right
    refine ⟨by omega, ?_⟩
    simp only [ISODate.key]
    omega

theorem addMonths_key_succ_lt (base : ISODate) (hv : base.Valid) (offset : Int) :
    (addMonths base offset).key < (addMonths base (offset + 1)).key := by
  obtain ⟨hm1, hm2, hd1, hd2⟩ := hv
  have hcount : monthCount base (offset + 1) = monthCount base offset + 1 := by
    unfold monthCount; ring
  have hd31 : base.day ≤ 31 := by
    have := daysInMonth_bounds base.year base.month
    omega
  have hb0 := daysInMonth_bounds (monthCount base offset / 12) (monthCount base offset % 12 + 1)
  have hb1 := daysInMonth_bounds (monthCount base (offset + 1) / 12)
    (monthCount base (offset + 1) % 12 + 1)
  have hk0 := monthKeyAux_succ (monthCount base offset)
  have hk1 := monthKeyAux_succ (monthCount base offset + 1)
  rcases addMonths_key_cases base offset with ⟨hfit, hkey⟩ | ⟨hroll, hkey⟩ <;>
    rcases addMonths_key_cases base (offset + 1) with ⟨hfit', hkey'⟩ | ⟨hroll', hkey'⟩ <;>
    rw [hcount] at * <;> omega

theorem addMonths_key_strictMono (base : ISODate) (hv : base.Valid) :
    StrictMono (fun o : Int => (addMonths base o).key) :=
  strictMono_int_of_lt_succ (fun o => addMonths_key_succ_lt base hv o)

theorem addMonths_valid (base : ISODate) (hv : base.Valid) (offset : Int) :
    (addMonths base offset).Valid := by
  obtain ⟨hm1, hm2, hd1, hd2⟩ := hv
  have hd31 : base.day ≤ 31 := by
    have := daysInMonth_bounds base.year base.month
    omega
  unfold addMonths
  dsimp only
  set t := 12 * base.year + (base.month - 1) + offset with ht
  have hb0 := daysInMonth_bounds (t / 12) (t % 12 + 1)
  split_ifs with h1 h2
  · simp only [ISODate.Valid]
    omega
  · simp only [ISODate.Valid]
    have hb2 := daysInMonth_bounds (t / 12 + 1) 1
    omega
  · simp only [ISODate.Valid]
    have hb2 := daysInMonth_bounds (t / 12) (t % 12 + 1 + 1)
    omega

-- ---------- C1 ----------

/--
C1 (counterexample): `addMonths` does not clamp an overflowing day-of-month to
the end of the target month.  At the valid ISO date 2025-01-31 with offset 1
the source rolls over into March (2025-03-03) where the claim requires the
clamped date 2025-02-28.
-/
theorem addMonths_not_clamped_at_jan31 :
    (ISODate.mk 2025 1 31).Valid ∧
      addMonths ⟨2025, 1, 31⟩ 1 = ⟨2025, 3, 3⟩ ∧
      addMonthsClamped ⟨2025, 1, 31⟩ 1 = ⟨2025, 2, 28⟩ ∧
      addMonths ⟨2025, 1, 31⟩ 1 ≠ addMonthsClamped ⟨2025, 1, 31⟩ 1 := by
  refine ⟨by decide, by decide, by decide, by decide⟩

/--
C1 (amended): `addMonths(d, n)` adds `n` months keeping the day-of-month; a
day that exceeds the length of the target month rolls over into the following
month by the excess (JS `setUTCMonth` semantics) instead of clamping.  In
particular the result is always a valid calendar date, and whenever the
day-of-month is at most 28 (so no clamping could occur) it coincides with the
spec's clamped-day semantics.
-/
theorem addMonths_valid_and_clamped_of_day_le_28 (base : ISODate) (offset : Int)
    (hv : base.Valid) :
    (addMonths base offset).Valid ∧
      (base.day ≤ 28 → addMonths base offset = addMonthsClamped base offset) := by
  refine ⟨addMonths_valid base hv offset, fun hday => ?_⟩
  unfold addMonths addMonthsClamped
  dsimp only
  set t := 12 * base.year + (base.month - 1) + offset with ht
  have hb0 := daysInMonth_bounds (t / 12) (t % 12 + 1)
  have h1 : base.day ≤ daysInMonth (t / 12) (t % 12 + 1) := by omega
  simp only [if_pos h1]
  have hmin : min base.day (daysInMonth (t / 12) (t % 12 + 1)) = base.day := by omega
  rw [hmin]

/-- C1 (witness): the amended theorem applied at 2025-01-15 with offset 13. -/
theorem addMonths_clamped_witness :
    (ISODate.mk 2025 1 15).Valid ∧ (addMonths ⟨2025, 1, 15⟩ 13).Valid ∧
      addMonths ⟨2025, 1, 15⟩ 13 = addMonthsClamped ⟨2025, 1, 15⟩ 13 := by
  have h := addMonths_valid_and_clamped_of_day_le_28 ⟨2025, 1, 15⟩ 13 (by decide)
  exact ⟨by decide, h.1, h.2 (by decide)⟩

-- ---------- Annuity algebra ----------

/-- Validity of loan terms per the data model: positive principal,
non-negative rate, positive term, valid start date. -/
def ValidTerms (t : MortgageOriginalTerms) : Prop :=
  0 < t.principal ∧ 0 ≤ t.annualRate ∧ 0 < t.termMonths ∧ t.startDate.Valid

/-- The exact remaining balance after k contractual payments with no
prepayments and no clamping: the contractual amortization recurrence. -/
def annuityPhi (P pay r : ℚ) : ℕ → ℚ
  | 0 => P
  | k + 1 => annuityPhi P pay r k * (1 + r) - pay

theorem annuityPhi_closed (P pay r : ℚ) (k : ℕ) :
    annuityPhi P pay r k =
      P * (1 + r) ^ k - pay * ∑ i ∈ Finset.range k, (1 + r) ^ i := by
  induction k with
  | zero => simp [annuityPhi]
  | succ k ih =>
    rw [annuityPhi, ih, geom_sum_succ]
    ring

/-- The contractual monthly payment as a rational (the value inside the
`Except` of `computeMonthlyPayment` for well-formed terms). -/
def monthlyPaymentQ (t : MortgageOriginalTerms) : ℚ :=
  let r := t.annualRate / 12
  if r = 0 then t.principal / t.termMonths
  else t.principal * r * (1 + r) ^ t.termMonths / ((1 + r) ^ t.termMonths - 1)

theorem computeMonthlyPayment_eq_ok (t : MortgageOriginalTerms)
    (hP : 0 < t.principal) (hn : t.termMonths ≠ 0) :
    computeMonthlyPayment t = .ok (monthlyPaymentQ t) := by
  unfold computeMonthlyPayment monthlyPaymentQ
  rw [if_neg (by linarith), if_neg hn]
  dsimp only
  split_ifs <;> rfl

section AnnuityFacts

variable {P rate : ℚ} {n : ℕ}

theorem one_lt_pow_of_rate (hr : 0 < rate) (hn : n ≠ 0) : 1 < (1 + rate / 12) ^ n :=
  one_lt_pow₀ (by linarith) hn

/-- With the contractual annuity payment, the exact balance is zero after
exactly `termMonths` payments. -/
theorem annuityPhi_term_zero (t : MortgageOriginalTerms) (hP : 0 < t.principal)
    (hr : 0 ≤ t.annualRate) (hn : t.termMonths ≠ 0) :
    annuityPhi t.principal (monthlyPaymentQ t) (t.annualRate / 12) t.termMonths = 0 := by
  set r := t.annualRate / 12 with hrdef
  rw [annuityPhi_closed]
  unfold monthlyPaymentQ
  rw [← hrdef]
  by_cases h0 : r = 0
  · rw [if_pos h0, h0]
    simp only [add_zero, one_pow, mul_one, Finset.sum_const, Finset.card_range,
      nsmul_eq_mul, mul_one]
    have hnq : (t.termMonths : ℚ) ≠ 0 := Nat.cast_ne_zero.mpr hn
    field_simp
  · rw [if_neg h0]
    have hrpos : 0 < r := by
      rcases lt_or_eq_of_le (by positivity : (0:ℚ) ≤ r) with h | h
      · exact h
      · exact absurd h.symm h0
    have hA : 1 < (1 + r) ^ t.termMonths := one_lt_pow₀ (by linarith) hn
    have hgeom : ∑ i ∈ Finset.range t.termMonths, (1 + r) ^ i =
        ((1 + r) ^ t.termMonths - 1) / ((1 + r) - 1) := geom_sum_eq (by linarith) _
    rw [hgeom]
    have hd : (1 + r) ^ t.termMonths - 1 ≠ 0 := by linarith
    field_simp
    ring

/-- Closed form of the balance under a positive monthly rate:
`phi k = P * (A - (1+r)^k) / (A - 1)` with `A = (1+r)^n`. -/
theorem annuityPhi_formula (t : MortgageOriginalTerms) (hr0 : 0 < t.annualRate / 12)
    (hn : t.termMonths ≠ 0) (k : ℕ) :
    annuityPhi t.principal (monthlyPaymentQ t) (t.annualRate / 12) k =
      t.principal * ((1 + t.annualRate / 12) ^ t.termMonths - (1 + t.annualRate / 12) ^ k) /
        ((1 + t.annualRate / 12) ^ t.termMonths - 1) := by
  set r := t.annualRate / 12 with hrdef
  have hA : 1 < (1 + r) ^ t.termMonths := one_lt_pow₀ (by linarith) hn
  have hd : (1 + r) ^ t.termMonths - 1 ≠ 0 := by linarith
  rw [annuityPhi_closed]
  unfold monthlyPaymentQ
  rw [← hrdef, if_neg (by linarith)]
  have hgeom : ∑ i ∈ Finset.range k, (1 + r) ^ i =
      ((1 + r) ^ k - 1) / ((1 + r) - 1) := geom_sum_eq (by linarith) _
  rw [hgeom]
  have hr' : r ≠ 0 := by linarith
  field_simp
  ring

theorem annuityPhi_nonneg (t : MortgageOriginalTerms) (hP : 0 < t.principal)
    (hr : 0 ≤ t.annualRate) (hn : t.termMonths ≠ 0) {k : ℕ} (hk : k ≤ t.termMonths) :
    0 ≤ annuityPhi t.principal (monthlyPaymentQ t) (t.annualRate / 12) k := by
  set r := t.annualRate / 12 with hrdef
  rcases eq_or_lt_of_le (by positivity : (0:ℚ) ≤ r) with h0 | hr0
  · rw [annuityPhi_closed]
    unfold monthlyPaymentQ
    rw [← hrdef, if_pos h0.symm, ← h0]
    simp only [add_zero, one_pow, mul_one, Finset.sum_const, Finset.card_range,
      nsmul_eq_mul, mul_one]
    have hnq : 0 < (t.termMonths : ℚ) := by
      exact_mod_cast Nat.pos_of_ne_zero hn
    rw [div_mul_eq_mul_div, sub_nonneg, div_le_iff₀ hnq]
    have : (k : ℚ) ≤ (t.termMonths : ℚ) := by exact_mod_cast hk
    nlinarith
  · rw [annuityPhi_formula t hr0 hn k]
    have hA : 1 < (1 + r) ^ t.termMonths := one_lt_pow₀ (by linarith) hn
    have hpow : (1 + r) ^ k ≤ (1 + r) ^ t.termMonths :=
      pow_le_pow_right₀ (by linarith) hk
    have h1 : 0 ≤ t.principal * ((1 + r) ^ t.termMonths - (1 + r) ^ k) := by nlinarith
    exact div_nonneg h1 (by linarith)

theorem annuityPhi_le_principal (t : MortgageOriginalTerms) (hP : 0 < t.principal)
    (hr : 0 ≤ t.annualRate) (hn : t.termMonths ≠ 0) {k : ℕ} (hk : k ≤ t.termMonths) :
    annuityPhi t.principal (monthlyPaymentQ t) (t.annualRate / 12) k ≤ t.principal := by
  set r := t.annualRate / 12 with hrdef
  rcases eq_or_lt_of_le (by positivity : (0:ℚ) ≤ r) with h0 | hr0
  · rw [annuityPhi_closed]
    unfold monthlyPaymentQ
    rw [← hrdef, if_pos h0.symm, ← h0]
    simp only [add_zero, one_pow, mul_one, Finset.sum_const, Finset.card_range,
      nsmul_eq_mul, mul_one]
    have hnq : 0 < (t.termMonths : ℚ) := by
      exact_mod_cast Nat.pos_of_ne_zero hn
    have hge : 0 ≤ t.principal / t.termMonths * k := by positivity
    linarith
  · rw [annuityPhi_formula t hr0 hn k]
    have hA : 1 < (1 + r) ^ t.termMonths := one_lt_pow₀ (by linarith) hn
    have hpow : 1 ≤ (1 + r) ^ k := one_le_pow₀ (by linarith)
    rw [div_le_iff₀ (by linarith)]
    nlinarith

theorem monthlyPaymentQ_pos (t : MortgageOriginalTerms) (hP : 0 < t.principal)
    (hr : 0 ≤ t.annualRate) (hn : t.termMonths ≠ 0) : 0 < monthlyPaymentQ t := by
  unfold monthlyPaymentQ
  dsimp only
  set r := t.annualRate / 12 with hrdef
  have hnq : 0 < (t.termMonths : ℚ) := by exact_mod_cast Nat.pos_of_ne_zero hn
  split_ifs with h0
  · positivity
  · have hr0 : 0 < r := by
      rcases eq_or_lt_of_le (by positivity : (0:ℚ) ≤ r) with h | h
      · exact absurd h.symm h0
      · exact h
    have hA : 1 < (1 + r) ^ t.termMonths := one_lt_pow₀ (by linarith) hn
    have hnum : 0 < t.principal * r * (1 + r) ^ t.termMonths := by positivity
    exact div_pos hnum (by linarith)

/-- With a positive rate, the contractual payment strictly exceeds the first
month's interest on the full principal. -/
theorem rate_mul_principal_lt_payment (t : MortgageOriginalTerms) (hP : 0 < t.principal)
    (hr0 : 0 < t.annualRate / 12) (hn : t.termMonths ≠ 0) :
    t.annualRate / 12 * t.principal < monthlyPaymentQ t := by
  set r := t.annualRate / 12 with hrdef
  unfold monthlyPaymentQ
  rw [← hrdef, if_neg (by linarith)]
  have hA : 1 < (1 + r) ^ t.termMonths := one_lt_pow₀ (by linarith) hn
  rw [lt_div_iff₀ (by linarith)]
  nlinarith

/-- `phi` is non-positive from the scheduled term onward. -/
theorem annuityPhi_nonpos_of_term_le (t : MortgageOriginalTerms) (hP : 0 < t.principal)
    (hr : 0 ≤ t.annualRate) (hn : t.termMonths ≠ 0) {k : ℕ} (hk : t.termMonths ≤ k) :
    annuityPhi t.principal (monthlyPaymentQ t) (t.annualRate / 12) k ≤ 0 := by
  set r := t.annualRate / 12 with hrdef
  have hpay : 0 < monthlyPaymentQ t := monthlyPaymentQ_pos t hP hr hn
  have hrr : 0 ≤ r := by positivity
  obtain ⟨m, rfl⟩ := Nat.exists_eq_add_of_le hk
  induction m with
  | zero =>
    rw [Nat.add_zero, annuityPhi_term_zero t hP hr hn]
  | succ m ih =>
    have step : annuityPhi t.principal (monthlyPaymentQ t) r (t.termMonths + (m + 1)) =
        annuityPhi t.principal (monthlyPaymentQ t) r (t.termMonths + m) * (1 + r) -
          monthlyPaymentQ t := rfl
    rw [step]
    have hm := ih (Nat.le_add_right _ _)
    nlinarith

/-- All balances along `phi` stay at or below the principal. -/
theorem annuityPhi_le_principal_all (t : MortgageOriginalTerms) (hP : 0 < t.principal)
    (hr : 0 ≤ t.annualRate) (hn : t.termMonths ≠ 0) (k : ℕ) :
    annuityPhi t.principal (monthlyPaymentQ t) (t.annualRate / 12) k ≤ t.principal := by
  rcases le_or_lt k t.termMonths with hk | hk
  · exact annuityPhi_le_principal t hP hr hn hk
  · exact le_trans (annuityPhi_nonpos_of_term_le t hP hr hn hk.le) hP.le

end AnnuityFacts


-- ---------- Baseline loop lemmas ----------

theorem schedEps_pos : 0 < schedEps := by norm_num [schedEps]

theorem baselineLoop_length (s : ISODate) (r pay : ℚ) :
    ∀ fuel i rem, (baselineLoop s r pay fuel i rem).length ≤ fuel := by
  intro fuel
  induction fuel with
  | zero => intro i rem; simp [baselineLoop]
  | succ fuel ih =>
    intro i rem
    by_cases hstop : rem ≤ schedEps
    · rw [baselineLoop, if_pos hstop]; simp
    · rw [baselineLoop, if_neg hstop]
      simp only [List.length_cons]
      exact Nat.succ_le_succ (ih _ _)

theorem baselineLoop_payment (s : ISODate) (r pay : ℚ) :
    ∀ fuel i rem, ∀ e ∈ baselineLoop s r pay fuel i rem,
      e.payment = pay ∧ e.interest + e.principal = pay := by
  intro fuel
  induction fuel with
  | zero => intro i rem e he; simp [baselineLoop] at he
  | succ fuel ih =>
    intro i rem e he
    by_cases hstop : rem ≤ schedEps
    · rw [baselineLoop, if_pos hstop] at he; simp at he
    · rw [baselineLoop, if_neg hstop] at he
      rcases List.mem_cons.mp he with rfl | hmem
      · exact ⟨rfl, by dsimp only; ring⟩
      · exact ih _ _ e hmem

theorem baselineLoop_remaining (s : ISODate) (r pay : ℚ) (hr : 0 ≤ r) :
    ∀ fuel i rem, 0 ≤ rem → r * rem ≤ pay →
      (∀ e ∈ baselineLoop s r pay fuel i rem, 0 ≤ e.remaining ∧ e.remaining ≤ rem) ∧
        List.Chain' (fun a b => b.remaining ≤ a.remaining) (baselineLoop s r pay fuel i rem) := by
  intro fuel
  induction fuel with
  | zero => intro i rem _ _; simp [baselineLoop]
  | succ fuel ih =>
    intro i rem hrem hpr
    by_cases hstop : rem ≤ schedEps
    · rw [baselineLoop, if_pos hstop]; simp
    · rw [baselineLoop, if_neg hstop]
      dsimp only
      have hpay0 : 0 ≤ pay := le_trans (by positivity) hpr
      have hintle : (if 0 < r then rem * r else 0) ≤ pay := by
        split_ifs with h
        · calc rem * r = r * rem := by ring
            _ ≤ pay := hpr
        · exact hpay0
      have hint0 : 0 ≤ (if 0 < r then rem * r else 0) := by
        split_ifs with h
        · exact mul_nonneg hrem (le_of_lt h)
        · exact le_refl 0
      set rem' := max 0 (rem - (pay - (if 0 < r then rem * r else 0))) with hremdef
      have h0' : 0 ≤ rem' := le_max_left _ _
      have hle : rem' ≤ rem := by
        rw [hremdef]
        exact max_le hrem (by linarith)
      have hpr' : r * rem' ≤ pay :=
        le_trans (mul_le_mul_of_nonneg_left hle hr) hpr
      obtain ⟨hmem, hchain⟩ := ih (i + 1) rem' h0' hpr'
      refine ⟨?_, ?_⟩
      · intro e he
        rcases List.mem_cons.mp he with rfl | hmem'
        · exact ⟨h0', hle⟩
        · obtain ⟨h1, h2⟩ := hmem e hmem'
          exact ⟨h1, le_trans h2 hle⟩
      · rw [List.chain'_cons']
        refine ⟨?_, hchain⟩
        intro b hb
        exact (hmem b (List.mem_of_mem_head? hb)).2

theorem baselineLoop_dates (s : ISODate) (r pay : ℚ) :
    ∀ fuel i rem, ∀ k, (h : k < (baselineLoop s r pay fuel i rem).length) →
      ((baselineLoop s r pay fuel i rem).get ⟨k, h⟩).date = addMonths s (i + k) := by
  intro fuel
  induction fuel with
  | zero => intro i rem k h; simp [baselineLoop] at h
  | succ fuel ih =>
    intro i rem k h
    by_cases hstop : rem ≤ schedEps
    · rw [baselineLoop, if_pos hstop] at h; simp at h
    · revert h
      rw [baselineLoop, if_neg hstop]
      intro h
      match k with
      | 0 => simp
      | k + 1 =>
        simp only [List.length_cons, Nat.add_lt_add_iff_right] at h
        have hrec := ih (i + 1) _ k h
        simp only [List.get_cons_succ]
        rw [hrec]
        congr 1
        omega

/-- When the baseline loop breaks by fuel exhaustion, the exact annuity
balance has hit 0, so the last recorded remaining is at most epsilon. -/
theorem baselineLoop_last_remaining (t : MortgageOriginalTerms) (hP : 0 < t.principal)
    (hr : 0 ≤ t.annualRate) (hn : t.termMonths ≠ 0) :
    ∀ fuel i, fuel + i = t.termMonths →
      ∀ e, (baselineLoop t.startDate (t.annualRate / 12) (monthlyPaymentQ t) fuel i
          (annuityPhi t.principal (monthlyPaymentQ t) (t.annualRate / 12) i)).getLast? =
          some e →
        e.remaining ≤ schedEps := by
  set r := t.annualRate / 12 with hrdef
  have hr12 : 0 ≤ r := by rw [hrdef]; positivity
  set pay := monthlyPaymentQ t with hpay
  intro fuel
  induction fuel with
  | zero =>
    intro i hi e he
    simp [baselineLoop] at he
  | succ fuel ih =>
    intro i hi e he
    by_cases hstop : annuityPhi t.principal pay r i ≤ schedEps
    · rw [baselineLoop, if_pos hstop] at he; simp at he
    · rw [baselineLoop, if_neg hstop] at he
      dsimp only at he
      have hstep : max 0 (annuityPhi t.principal pay r i -
          (pay - (if 0 < r then annuityPhi t.principal pay r i * r else 0))) =
          annuityPhi t.principal pay r (i + 1) := by
        have hinner : annuityPhi t.principal pay r i -
            (pay - (if 0 < r then annuityPhi t.principal pay r i * r else 0)) =
            annuityPhi t.principal pay r (i + 1) := by
          show _ = annuityPhi t.principal pay r i * (1 + r) - pay
          split_ifs with h
          · ring
          · have hz : r = 0 := le_antisymm (not_lt.mp h) hr12
            rw [hz]; ring
        rw [hinner]
        exact max_eq_right (annuityPhi_nonneg t hP hr hn (by omega))
      rw [hstep] at he
      rcases hrest : baselineLoop t.startDate r pay fuel (i + 1)
          (annuityPhi t.principal pay r (i + 1)) with _ | ⟨e', rest'⟩
      · rw [hrest] at he
        simp only [List.getLast?_singleton, Option.some.injEq] at he
        subst he
        dsimp only
        rcases Nat.eq_zero_or_pos fuel with hf0 | hfpos
        · have hterm : i + 1 = t.termMonths := by omega
          rw [hterm, hpay, hrdef, annuityPhi_term_zero t hP hr hn]
          exact schedEps_pos.le
        · obtain ⟨fuel', rfl⟩ := Nat.exists_eq_succ_of_ne_zero (Nat.pos_iff_ne_zero.mp hfpos)
          by_cases hstop' : annuityPhi t.principal pay r (i + 1) ≤ schedEps
          · exact hstop'
          · rw [baselineLoop, if_neg hstop'] at hrest
            simp at hrest
      · rw [hrest] at he
        rw [List.getLast?_cons_cons] at he
        rw [← hrest] at he
        exact ih (i + 1) (by omega) e he


-- ---------- History loop lemmas ----------

theorem dueAt_nonneg (d : ISODate) (pending : List PastPrepayment)
    (h : ∀ p ∈ pending, 0 ≤ p.amount) :
    0 ≤ ((dueAt d pending).map (fun p => p.amount)).sum := by
  apply List.sum_nonneg
  intro a ha
  obtain ⟨p, hp, rfl⟩ := List.mem_map.mp ha
  exact h p ((List.takeWhile_sublist _).mem hp)

theorem notDueAt_nonneg (d : ISODate) (pending : List PastPrepayment)
    (h : ∀ p ∈ pending, 0 ≤ p.amount) :
    ∀ p ∈ notDueAt d pending, 0 ≤ p.amount :=
  fun p hp => h p ((List.dropWhile_sublist _).mem hp)

/-- Full characterisation of one history iteration under the standing
invariants (non-negative rate and balance, payment covering the interest,
non-negative prepayment amounts). -/
theorem historyStep_spec (s : ISODate) (r pay : ℚ) (i : ℕ) (rem : ℚ)
    (pending : List PastPrepayment) (hr : 0 ≤ r) (hrem : 0 ≤ rem)
    (hpr : r * rem ≤ pay) (hpend : ∀ p ∈ pending, 0 ≤ p.amount) :
    ∃ e, historyStep s r pay i rem pending = .ok (e, notDueAt (addMonths s i) pending) ∧
      e.date = addMonths s i ∧
      e.payment = pay + ((dueAt (addMonths s i) pending).map (fun p => p.amount)).sum ∧
      e.interest = (if 0 < r then rem * r else 0) ∧
      0 ≤ e.remaining ∧ e.remaining ≤ rem ∧
      e.remaining ≤ max 0 (rem * (1 + r) - pay) ∧
      pay ≤ e.payment ∧
      e.interest + e.principal ≤ e.payment ∧
      (e.payment = pay → 0 < e.remaining → e.interest + e.principal = e.payment) := by
  have hint0 : 0 ≤ (if 0 < r then rem * r else 0) := by
    split_ifs with h
    · exact mul_nonneg hrem h.le
    · exact le_refl 0
  have hintle : (if 0 < r then rem * r else 0) ≤ pay := by
    split_ifs with h
    · calc rem * r = r * rem := by ring
        _ ≤ pay := hpr
    · exact le_trans (mul_nonneg hr hrem) hpr
  have hext0 : 0 ≤ ((dueAt (addMonths s i) pending).map (fun p => p.amount)).sum :=
    dueAt_nonneg _ _ hpend
  have hstepval : rem * (1 + r) - pay =
      rem - (pay - (if 0 < r then rem * r else 0)) -
        (if 0 < r then 0 else rem * r) := by
    split_ifs with h
    · ring
    · have hz : r = 0 := le_antisymm (not_lt.mp h) hr
      rw [hz]; ring
  rw [historyStep]
  dsimp only
  set interest := (if 0 < r then rem * r else 0) with hint
  set extra := ((dueAt (addMonths s i) pending).map (fun p => p.amount)).sum with hext
  have hneg : ¬ pay - interest < 0 := by push_neg; linarith
  rw [if_neg hneg]
  by_cases hcap : rem < pay - interest + extra
  · simp only [if_pos hcap]
    refine ⟨_, rfl, rfl, rfl, rfl, ?_, ?_, ?_, ?_, ?_, ?_⟩ <;> dsimp only
    · simp
    · simp [hrem]
    · simp only [sub_self, max_self]
      exact le_max_left _ _
    · linarith
    · rcases le_or_lt extra rem with hre | hre
      · have hmax : max 0 (rem - extra) = rem - extra := max_eq_right (by linarith)
        rw [hmax]; linarith
      · have hmax : max 0 (rem - extra) = 0 := max_eq_left (by linarith)
        rw [hmax]; linarith
    · intro hpayeq hrempos
      have hez : extra = 0 := by linarith
      rw [hez] at hcap
      simp only [hez, add_zero, sub_self] at hrempos
      simp at hrempos
  · simp only [if_neg hcap]
    refine ⟨_, rfl, rfl, rfl, rfl, ?_, ?_, ?_, ?_, ?_, ?_⟩ <;> dsimp only
    · exact le_max_left _ _
    · refine max_le hrem (by linarith)
    · have h1 : rem - (pay - interest + extra) ≤ rem * (1 + r) - pay := by
        have hrr : (if 0 < r then (0:ℚ) else rem * r) ≤ 0 := by
          split_ifs with h
          · exact le_refl 0
          · have hz : r = 0 := le_antisymm (not_lt.mp h) hr
            rw [hz]; simp
      -- rem*(1+r) - pay = rem - (pay - interest) - (if 0<r then 0 else rem*r)
        rw [hstepval]
        linarith
      rcases le_or_lt (rem - (pay - interest + extra)) 0 with hle | hlt
      · rw [max_eq_left hle]
        exact le_max_left _ _
      · rw [max_eq_right hlt.le]
        exact le_max_of_le_right h1
    · linarith
    · linarith
    · intro hpayeq hrempos
      have hez : extra = 0 := by linarith
      rw [hpayeq] at *
      linarith

theorem historyStep_ok_shape (s : ISODate) (r pay : ℚ) (i : ℕ) (rem : ℚ)
    (pending : List PastPrepayment) (e : AmortizationEntry)
    (pd : List PastPrepayment)
    (h : historyStep s r pay i rem pending = .ok (e, pd)) :
    e.date = addMonths s i ∧ pd = notDueAt (addMonths s i) pending := by
  rw [historyStep] at h
  dsimp only at h
  by_cases hneg : pay - (if 0 < r then rem * r else 0) < 0
  · rw [if_pos hneg] at h
    exact absurd h (by simp)
  · rw [if_neg hneg] at h
    simp only [Except.ok.injEq, Prod.mk.injEq] at h
    obtain ⟨he, hpd⟩ := h
    exact ⟨by rw [← he], by rw [← hpd]⟩

/-- The history loop never fails and satisfies the per-entry invariants under
a non-negative rate, a payment covering the first month's interest, and
non-negative prepayment amounts. -/
theorem historyLoop_invariants (s : ISODate) (r pay : ℚ) (hr : 0 ≤ r) :
    ∀ fuel i rem pending, 0 ≤ rem → r * rem ≤ pay →
      (∀ p ∈ pending, 0 ≤ p.amount) →
      ∃ sched, historyLoop s r pay fuel i rem pending = .ok sched ∧
        sched.length ≤ fuel ∧
        (∀ e ∈ sched, 0 ≤ e.remaining ∧ e.remaining ≤ rem ∧
          pay ≤ e.payment ∧ e.interest + e.principal ≤ e.payment ∧
          (e.payment = pay → 0 < e.remaining → e.interest + e.principal = e.payment)) ∧
        List.Chain' (fun a b => b.remaining ≤ a.remaining) sched := by
  intro fuel
  induction fuel with
  | zero =>
    intro i rem pending _ _ _
    exact ⟨[], rfl, by simp, by simp, by simp⟩
  | succ fuel ih =>
    intro i rem pending hrem hpr hpend
    by_cases hstop : rem ≤ schedEps
    · refine ⟨[], ?_, by simp, by simp, by simp⟩
      rw [historyLoop, if_pos hstop]
    · obtain ⟨e, hstep, hdate, hpayE, hintE, h0, hlerem, hphi, hpayle, hip, hcond⟩ :=
        historyStep_spec s r pay i rem pending hr hrem hpr hpend
      have hpr' : r * e.remaining ≤ pay :=
        le_trans (mul_le_mul_of_nonneg_left hlerem hr) hpr
      obtain ⟨rest, hrec, hlen, hmem, hchain⟩ :=
        ih (i + 1) e.remaining (notDueAt (addMonths s i) pending) h0 hpr'
          (notDueAt_nonneg _ _ hpend)
      refine ⟨e :: rest, ?_, ?_, ?_, ?_⟩
      · rw [historyLoop, if_neg hstop, hstep]
        simp only [bind, Except.bind]
        rw [hrec]
        rfl
      · simpa using Nat.succ_le_succ hlen
      · intro x hx
        rcases List.mem_cons.mp hx with rfl | hx'
        · exact ⟨h0, hlerem, hpayle, hip, hcond⟩
        · obtain ⟨k1, k2, k3, k4, k5⟩ := hmem x hx'
          exact ⟨k1, le_trans k2 hlerem, k3, k4, k5⟩
      · rw [List.chain'_cons']
        refine ⟨?_, hchain⟩
        intro b hb
        exact (hmem b (List.mem_of_mem_head? hb)).2.1

theorem historyLoop_dates (s : ISODate) (r pay : ℚ) :
    ∀ fuel i rem pending sched,
      historyLoop s r pay fuel i rem pending = .ok sched →
      ∀ k, (h : k < sched.length) → (sched.get ⟨k, h⟩).date = addMonths s (i + k) := by
  intro fuel
  induction fuel with
  | zero =>
    intro i rem pending sched hok k h
    simp only [historyLoop, Except.ok.injEq] at hok
    rw [← hok] at h
    simp at h
  | succ fuel ih =>
    intro i rem pending sched hok k h
    by_cases hstop : rem ≤ schedEps
    · rw [historyLoop, if_pos hstop] at hok
      simp only [Except.ok.injEq] at hok
      rw [← hok] at h
      simp at h
    · rw [historyLoop, if_neg hstop] at hok
      rcases hstep : historyStep s r pay i rem pending with err | pr
      · rw [hstep] at hok
        simp [bind, Except.bind] at hok
      · rw [hstep] at hok
        simp only [bind, Except.bind] at hok
        rcases hrec : historyLoop s r pay fuel (i + 1) pr.1.remaining pr.2 with err | rest
        · rw [hrec] at hok
          simp at hok
        · rw [hrec] at hok
          replace hok : pr.1 :: rest = sched := Except.ok.inj hok
          subst hok
          obtain ⟨hdate, -⟩ := historyStep_ok_shape s r pay i rem pending pr.1 pr.2
            (by rw [hstep])
          match k with
          | 0 => simpa using hdate
          | k + 1 =>
            simp only [List.length_cons, Nat.add_lt_add_iff_right] at h
            have hrec' := ih (i + 1) pr.1.remaining pr.2 rest hrec k h
            simp only [List.get_cons_succ]
            rw [hrec']
            congr 1
            omega

theorem historyLoop_ok_nil (s : ISODate) (r pay : ℚ) (fuel i : ℕ) (rem : ℚ)
    (pending : List PastPrepayment)
    (h : historyLoop s r pay (fuel + 1) i rem pending = .ok []) : rem ≤ schedEps := by
  by_cases hstop : rem ≤ schedEps
  · exact hstop
  · exfalso
    rw [historyLoop, if_neg hstop] at h
    rcases hstep : historyStep s r pay i rem pending with err | pr
    · rw [hstep] at h; simp [bind, Except.bind] at h
    · rw [hstep] at h
      simp only [bind, Except.bind] at h
      rcases hrec : historyLoop s r pay fuel (i + 1) pr.1.remaining pr.2 with err | rest
      · rw [hrec] at h; simp at h
      · rw [hrec] at h
        exact absurd (Except.ok.inj h) (by simp)

/-- Coupled with the exact annuity balance, a successful history schedule's
last entry has remaining at most epsilon. -/
theorem historyLoop_last_le_eps (t : MortgageOriginalTerms) (hP : 0 < t.principal)
    (hr : 0 ≤ t.annualRate) (hn : t.termMonths ≠ 0) :
    ∀ fuel i rem pending, fuel + i = t.termMonths → 0 ≤ rem →
      rem ≤ annuityPhi t.principal (monthlyPaymentQ t) (t.annualRate / 12) i →
      (∀ p ∈ pending, 0 ≤ p.amount) →
      ∀ sched e,
        historyLoop t.startDate (t.annualRate / 12) (monthlyPaymentQ t) fuel i rem pending =
          .ok sched →
        sched.getLast? = some e → e.remaining ≤ schedEps := by
  set r := t.annualRate / 12 with hrdef
  have hr12 : 0 ≤ r := by rw [hrdef]; positivity
  set pay := monthlyPaymentQ t with hpaydef
  have hrP : r * t.principal ≤ pay := by
    rcases eq_or_lt_of_le hr12 with h0 | hpos
    · rw [← h0]
      simp only [zero_mul]
      exact (monthlyPaymentQ_pos t hP hr hn).le
    · exact (rate_mul_principal_lt_payment t hP hpos hn).le
  intro fuel
  induction fuel with
  | zero =>
    intro i rem pending hi hrem hle hpend sched e hok hlast
    simp only [historyLoop, Except.ok.injEq] at hok
    rw [← hok] at hlast
    simp at hlast
  | succ fuel ih =>
    intro i rem pending hi hrem hle hpend sched e hok hlast
    by_cases hstop : rem ≤ schedEps
    · rw [historyLoop, if_pos hstop] at hok
      simp only [Except.ok.injEq] at hok
      rw [← hok] at hlast
      simp at hlast
    · have hpr : r * rem ≤ pay := by
        have h1 : rem ≤ t.principal :=
          le_trans hle (annuityPhi_le_principal_all t hP hr hn i)
        exact le_trans (mul_le_mul_of_nonneg_left h1 hr12) hrP
      obtain ⟨e', hstep, hdate, hpayE, hintE, h0, hlerem, hphi, hpayle, hip, hcond⟩ :=
        historyStep_spec t.startDate r pay i rem pending hr12 hrem hpr hpend
      have hrem' : e'.remaining ≤ annuityPhi t.principal pay r (i + 1) := by
        have h1 : rem * (1 + r) - pay ≤
            annuityPhi t.principal pay r i * (1 + r) - pay := by
          have := mul_le_mul_of_nonneg_right hle (by linarith : (0:ℚ) ≤ 1 + r)
          linarith
        have h2 : max 0 (rem * (1 + r) - pay) ≤
            max 0 (annuityPhi t.principal pay r i * (1 + r) - pay) :=
          max_le_max (le_refl 0) h1
        have h3 : annuityPhi t.principal pay r i * (1 + r) - pay =
            annuityPhi t.principal pay r (i + 1) := rfl
        have h4 : max 0 (annuityPhi t.principal pay r (i + 1)) =
            annuityPhi t.principal pay r (i + 1) :=
          max_eq_right (annuityPhi_nonneg t hP hr hn (by omega))
        calc e'.remaining ≤ max 0 (rem * (1 + r) - pay) := hphi
          _ ≤ max 0 (annuityPhi t.principal pay r i * (1 + r) - pay) := h2
          _ = max 0 (annuityPhi t.principal pay r (i + 1)) := by rw [h3]
          _ = annuityPhi t.principal pay r (i + 1) := h4
      rw [historyLoop, if_neg hstop, hstep] at hok
      simp only [bind, Except.bind] at hok
      rcases hrec : historyLoop t.startDate r pay fuel (i + 1) e'.remaining
          (notDueAt (addMonths t.startDate i) pending) with err | rest
      · rw [hrec] at hok; simp at hok
      · rw [hrec] at hok
        replace hok : e' :: rest = sched := Except.ok.inj hok
        subst hok
        rcases hrest : rest with _ | ⟨e2, rest2⟩
        · rw [hrest] at hlast
          simp only [List.getLast?_singleton, Option.some.injEq] at hlast
          subst hlast
          rcases Nat.eq_zero_or_pos fuel with hf0 | hfpos
          · have hterm : i + 1 = t.termMonths := by omega
            rw [hterm] at hrem'
            rw [hpaydef, hrdef] at hrem'
            rw [annuityPhi_term_zero t hP hr hn] at hrem'
            exact le_trans hrem' schedEps_pos.le
          · obtain ⟨fuel', rfl⟩ :=
              Nat.exists_eq_succ_of_ne_zero (Nat.pos_iff_ne_zero.mp hfpos)
            rw [hrest] at hrec
            exact historyLoop_ok_nil _ _ _ _ _ _ _ hrec
        · rw [hrest] at hlast
          rw [List.getLast?_cons_cons] at hlast
          rw [← hrest] at hlast
          exact ih (i + 1) e'.remaining (notDueAt (addMonths t.startDate i) pending)
            (by omega) h0 hrem' (notDueAt_nonneg _ _ hpend) rest e hrec hlast

-- ---------- Future loop lemmas ----------

theorem futureEps_pos : 0 < futureEps := by norm_num [futureEps]

/-- All values of an extra map being non-negative makes every lookup
non-negative. -/
def MapNonneg (m : ExtraMap) : Prop := ∀ pr ∈ m, 0 ≤ pr.2

theorem mapGet_nonneg (m : ExtraMap) (hm : MapNonneg m) (k : ISODate) :
    0 ≤ ((mapGet m k).getD 0) := by
  unfold mapGet
  rcases hf : m.find? (fun e => decide (e.1 = k)) with _ | pr
  · rw [hf]
    exact le_refl 0
  · rw [hf]
    exact hm pr (List.mem_of_find?_eq_some hf)

/-- Full characterisation of one future-simulation iteration under the
standing invariants. -/
theorem futureStep_spec (pay r : ℚ) (eAsOf : ISODate) (extraMap : ExtraMap)
    (step : ℕ) (rem : ℚ) (hr : 0 ≤ r) (hrem : 0 ≤ rem)
    (hpr : r * rem < pay) (hmap : MapNonneg extraMap) :
    ∃ e, futureStep pay r eAsOf extraMap step rem = .ok e ∧
      e.date = addMonths eAsOf step ∧
      e.interest + e.principal = e.payment ∧
      e.interest = (if 0 < r then rem * r else 0) ∧
      0 ≤ e.remaining ∧ e.remaining ≤ rem ∧
      e.remaining ≤ max 0 (rem * (1 + r) - pay) := by
  have hint0 : 0 ≤ (if 0 < r then rem * r else 0) := by
    split_ifs with h
    · exact mul_nonneg hrem h.le
    · exact le_refl 0
  have hintlt : (if 0 < r then rem * r else 0) < pay := by
    split_ifs with h
    · calc rem * r = r * rem := by ring
        _ < pay := hpr
    · exact lt_of_le_of_lt (mul_nonneg hr hrem) hpr
  have hstepval : rem * (1 + r) - pay =
      rem - (pay - (if 0 < r then rem * r else 0)) -
        (if 0 < r then 0 else rem * r) := by
    split_ifs with h
    · ring
    · have hz : r = 0 := le_antisymm (not_lt.mp h) hr
      rw [hz]; ring
  rw [futureStep]
  dsimp only
  set interest := (if 0 < r then rem * r else 0) with hint
  set extra := (mapGet extraMap (addMonths eAsOf step)).getD 0 with hext
  have hext0 : 0 ≤ extra := mapGet_nonneg extraMap hmap _
  have hneg : ¬ pay - interest ≤ 0 := by push_neg; linarith
  rw [if_neg hneg]
  by_cases hcap : rem < pay - interest + extra
  · simp only [if_pos hcap, sub_self, max_self]
    exact ⟨_, rfl, rfl, rfl, rfl, le_refl 0, hrem, le_max_left _ _⟩
  · simp only [if_neg hcap]
    refine ⟨_, rfl, rfl, rfl, rfl, le_max_left _ _, max_le hrem (by linarith), ?_⟩
    show max 0 (rem - (pay - interest + extra)) ≤ max 0 (rem * (1 + r) - pay)
    have hrr : (if 0 < r then (0:ℚ) else rem * r) ≤ 0 := by
      split_ifs with h
      · exact le_refl 0
      · have hz : r = 0 := le_antisymm (not_lt.mp h) hr
        rw [hz]; simp
    have h1 : rem - (pay - interest + extra) ≤ rem * (1 + r) - pay := by
      rw [hstepval]
      linarith
    rcases le_or_lt (rem - (pay - interest + extra)) 0 with hle | hlt
    · rw [max_eq_left hle]
      exact le_max_left _ _
    · rw [max_eq_right hlt.le]
      exact le_max_of_le_right h1

/-- The future loop never fails and satisfies the per-entry invariants when
the payment strictly covers the interest and the extra map is non-negative.
The second component of the result is the remaining balance at loop exit:
the initial balance for an empty schedule, else the last entry's remaining. -/
theorem futureLoop_invariants (pay r : ℚ) (eAsOf : ISODate) (extraMap : ExtraMap)
    (hr : 0 ≤ r) (hmap : MapNonneg extraMap) :
    ∀ fuel step rem, 0 ≤ rem → r * rem < pay →
      ∃ sched fin, futureLoop pay r eAsOf extraMap fuel step rem = .ok (sched, fin) ∧
        sched.length ≤ fuel ∧
        (∀ e ∈ sched, 0 ≤ e.remaining ∧ e.remaining ≤ rem ∧
          e.interest + e.principal = e.payment) ∧
        List.Chain' (fun a b => b.remaining ≤ a.remaining) sched ∧
        0 ≤ fin ∧
        (sched = [] → fin = rem) ∧
        (∀ e, sched.getLast? = some e → fin = e.remaining) := by
  intro fuel
  induction fuel with
  | zero =>
    intro step rem hrem hpr
    exact ⟨[], rem, rfl, by simp, by simp, by simp, hrem, fun _ => rfl, by simp⟩
  | succ fuel ih =>
    intro step rem hrem hpr
    by_cases hstop : rem ≤ futureEps
    · refine ⟨[], rem, ?_, by simp, by simp, by simp, hrem, fun _ => rfl, by simp⟩
      rw [futureLoop, if_pos hstop]
    · obtain ⟨e, hstep, hdate, hip, hint, h0, hlerem, hphi⟩ :=
        futureStep_spec pay r eAsOf extraMap step rem hr hrem hpr hmap
      have hpr' : r * e.remaining < pay :=
        lt_of_le_of_lt (mul_le_mul_of_nonneg_left hlerem hr) hpr
      obtain ⟨rest, fin, hrec, hlen, hmem, hchain, hfin0, hfinnil, hfinlast⟩ :=
        ih (step + 1) e.remaining h0 hpr'
      refine ⟨e :: rest, fin, ?_, ?_, ?_, ?_, hfin0, by simp, ?_⟩
      · rw [futureLoop, if_neg hstop, hstep]
        simp only [bind, Except.bind]
        rw [hrec]
        rfl
      · simpa using Nat.succ_le_succ hlen
      · intro x hx
        rcases List.mem_cons.mp hx with rfl | hx'
        · exact ⟨h0, hlerem, hip⟩
        · obtain ⟨k1, k2, k3⟩ := hmem x hx'
          exact ⟨k1, le_trans k2 hlerem, k3⟩
      · rw [List.chain'_cons']
        refine ⟨?_, hchain⟩
        intro b hb
        exact (hmem b (List.mem_of_mem_head? hb)).2.1
      · intro e2 he2
        rcases hrest : rest with _ | ⟨e3, rest3⟩
        · rw [hrest] at he2
          simp only [List.getLast?_singleton, Option.some.injEq] at he2
          subst he2
          rw [hfinnil hrest]
        · rw [hrest] at he2
          rw [List.getLast?_cons_cons] at he2
          rw [← hrest] at he2
          exact hfinlast e2 he2

theorem futureLoop_length (pay r : ℚ) (eAsOf : ISODate) (extraMap : ExtraMap) :
    ∀ fuel step rem sched fin,
      futureLoop pay r eAsOf extraMap fuel step rem = .ok (sched, fin) →
      sched.length ≤ fuel := by
  intro fuel
  induction fuel with
  | zero =>
    intro step rem sched fin h
    simp only [futureLoop, Except.ok.injEq, Prod.mk.injEq] at h
    rw [← h.1]
    simp
  | succ fuel ih =>
    intro step rem sched fin h
    by_cases hstop : rem ≤ futureEps
    · rw [futureLoop, if_pos hstop] at h
      simp only [Except.ok.injEq, Prod.mk.injEq] at h
      rw [← h.1]
      simp
    · rw [futureLoop, if_neg hstop] at h
      rcases hstep : futureStep pay r eAsOf extraMap step rem with err | e
      · rw [hstep] at h; simp [bind, Except.bind] at h
      · rw [hstep] at h
        simp only [bind, Except.bind] at h
        rcases hrec : futureLoop pay r eAsOf extraMap fuel (step + 1) e.remaining
            with err | sr
        · rw [hrec] at h; simp at h
        · rw [hrec] at h
          replace h : (e :: sr.1, sr.2) = (sched, fin) := Except.ok.inj h
          cases h
          simpa using Nat.succ_le_succ (ih (step + 1) e.remaining sr.1 sr.2 (by rw [hrec]))

/-- Inversion: a successful future-loop run whose schedule is non-empty must
have started above the payoff threshold. -/
theorem futureLoop_ok_cons (pay r : ℚ) (eAsOf : ISODate) (extraMap : ExtraMap)
    (fuel step : ℕ) (rem : ℚ) (e : AmortizationEntry) (tl : List AmortizationEntry)
    (fin : ℚ) (h : futureLoop pay r eAsOf extraMap fuel step rem = .ok (e :: tl, fin)) :
    futureEps < rem := by
  rcases fuel with _ | fuel
  · simp only [futureLoop, Except.ok.injEq, Prod.mk.injEq] at h
    exact absurd h.1 (by simp)
  · by_cases hstop : rem ≤ futureEps
    · rw [futureLoop, if_pos hstop] at h
      simp only [Except.ok.injEq, Prod.mk.injEq] at h
      exact absurd h.1 (by simp)
    · exact not_le.mp hstop

/-- The exit balance of a successful future-loop run: the initial balance for
an empty schedule, otherwise the last entry's remaining. -/
theorem futureLoop_fin (pay r : ℚ) (eAsOf : ISODate) (extraMap : ExtraMap) :
    ∀ fuel step rem sched fin,
      futureLoop pay r eAsOf extraMap fuel step rem = .ok (sched, fin) →
      (sched = [] → fin = rem) ∧ (∀ e, sched.getLast? = some e → fin = e.remaining) := by
  intro fuel
  induction fuel with
  | zero =>
    intro step rem sched fin h
    simp only [futureLoop, Except.ok.injEq, Prod.mk.injEq] at h
    obtain ⟨h1, h2⟩ := h
    subst h1; subst h2
    exact ⟨fun _ => rfl, by simp⟩
  | succ fuel ih =>
    intro step rem sched fin h
    by_cases hstop : rem ≤ futureEps
    · rw [futureLoop, if_pos hstop] at h
      simp only [Except.ok.injEq, Prod.mk.injEq] at h
      obtain ⟨h1, h2⟩ := h
      subst h1; subst h2
      exact ⟨fun _ => rfl, by simp⟩
    · rw [futureLoop, if_neg hstop] at h
      rcases hstep : futureStep pay r eAsOf extraMap step rem with err | e
      · rw [hstep] at h; simp [bind, Except.bind] at h
      · rw [hstep] at h
        simp only [bind, Except.bind] at h
        rcases hrec : futureLoop pay r eAsOf extraMap fuel (step + 1) e.remaining
            with err | sr
        · rw [hrec] at h; simp at h
        · rw [hrec] at h
          replace h : (e :: sr.1, sr.2) = (sched, fin) := Except.ok.inj h
          cases h
          obtain ⟨hnil, hlast⟩ := ih (step + 1) e.remaining sr.1 sr.2 (by rw [hrec])
          refine ⟨by simp, ?_⟩
          intro e2 he2
          rcases hsr : sr.1 with _ | ⟨e3, tl3⟩
          · rw [hsr] at he2
            simp only [List.getLast?_singleton, Option.some.injEq] at he2
            subst he2
            exact hnil hsr
          · rw [hsr] at he2
            rw [List.getLast?_cons_cons] at he2
            rw [← hsr] at he2
            exact hlast e2 he2

/-- A successful future-loop run whose exit balance is still above the payoff
threshold must have used every step of its budget. -/
theorem futureLoop_full (pay r : ℚ) (eAsOf : ISODate) (extraMap : ExtraMap) :
    ∀ fuel step rem sched fin,
      futureLoop pay r eAsOf extraMap fuel step rem = .ok (sched, fin) →
      futureEps < fin → sched.length = fuel := by
  intro fuel
  induction fuel with
  | zero =>
    intro step rem sched fin h hfin
    simp only [futureLoop, Except.ok.injEq, Prod.mk.injEq] at h
    obtain ⟨h1, -⟩ := h
    rw [← h1]
    simp
  | succ fuel ih =>
    intro step rem sched fin h hfin
    by_cases hstop : rem ≤ futureEps
    · rw [futureLoop, if_pos hstop] at h
      simp only [Except.ok.injEq, Prod.mk.injEq] at h
      obtain ⟨-, h2⟩ := h
      subst h2
      exact absurd hstop (not_le.mpr hfin)
    · rw [futureLoop, if_neg hstop] at h
      rcases hstep : futureStep pay r eAsOf extraMap step rem with err | e
      · rw [hstep] at h; simp [bind, Except.bind] at h
      · rw [hstep] at h
        simp only [bind, Except.bind] at h
        rcases hrec : futureLoop pay r eAsOf extraMap fuel (step + 1) e.remaining
            with err | sr
        · rw [hrec] at h; simp at h
        · rw [hrec] at h
          replace h : (e :: sr.1, sr.2) = (sched, fin) := Except.ok.inj h
          cases h
          simp only [List.length_cons]
          rw [ih (step + 1) e.remaining sr.1 sr.2 (by rw [hrec]) hfin]

/-- Every entry of a successful future-loop run except the last still has a
balance above the payoff threshold: the loop stops as soon as the balance
drops to 0.01. -/
theorem futureLoop_nonfinal (pay r : ℚ) (eAsOf : ISODate) (extraMap : ExtraMap) :
    ∀ fuel step rem sched fin,
      futureLoop pay r eAsOf extraMap fuel step rem = .ok (sched, fin) →
      ∀ k, (h : k + 1 < sched.length) →
        futureEps < (sched.get ⟨k, by omega⟩).remaining := by
  intro fuel
  induction fuel with
  | zero =>
    intro step rem sched fin h k hk
    simp only [futureLoop, Except.ok.injEq, Prod.mk.injEq] at h
    obtain ⟨h1, -⟩ := h
    rw [← h1] at hk
    simp at hk
  | succ fuel ih =>
    intro step rem sched fin h k hk
    by_cases hstop : rem ≤ futureEps
    · rw [futureLoop, if_pos hstop] at h
      simp only [Except.ok.injEq, Prod.mk.injEq] at h
      obtain ⟨h1, -⟩ := h
      subst h1
      simp at hk
    · rw [futureLoop, if_neg hstop] at h
      rcases hstep : futureStep pay r eAsOf extraMap step rem with err | e
      · rw [hstep] at h; simp [bind, Except.bind] at h
      · rw [hstep] at h
        simp only [bind, Except.bind] at h
        rcases hrec : futureLoop pay r eAsOf extraMap fuel (step + 1) e.remaining
            with err | sr
        · rw [hrec] at h; simp at h
        · obtain ⟨srl, srf⟩ := sr
          rw [hrec] at h
          replace h : (e :: srl, srf) = (sched, fin) := Except.ok.inj h
          cases h
          match k with
          | 0 =>
            simp only [List.length_cons, Nat.add_lt_add_iff_right] at hk
            show futureEps < e.remaining
            rcases hsr : srl with _ | ⟨e3, tl3⟩
            · rw [hsr] at hk; simp at hk
            · rw [hsr] at hrec
              exact futureLoop_ok_cons pay r eAsOf extraMap fuel (step + 1)
                e.remaining e3 tl3 fin hrec
          | k + 1 =>
            simp only [List.length_cons, Nat.add_lt_add_iff_right] at hk
            have := ih (step + 1) e.remaining srl fin (by rw [hrec]) k hk
            simpa using this

/-- Coupled with the exact annuity balance: from any balance at or below the
on-schedule balance, the future loop pays off within the scheduled term and
therefore within any budget of at least `termMonths` steps. -/
theorem futureLoop_converges (t : MortgageOriginalTerms) (hP : 0 < t.principal)
    (hr : 0 ≤ t.annualRate) (hn : t.termMonths ≠ 0) (eAsOf : ISODate)
    (extraMap : ExtraMap) (hmap : MapNonneg extraMap) :
    ∀ fuel k step rem, 0 ≤ rem →
      rem ≤ max 0 (annuityPhi t.principal (monthlyPaymentQ t) (t.annualRate / 12) k) →
      t.termMonths ≤ fuel + k →
      ∃ sched fin,
        futureLoop (monthlyPaymentQ t) (t.annualRate / 12) eAsOf extraMap fuel step rem =
          .ok (sched, fin) ∧ fin ≤ futureEps := by
  set r := t.annualRate / 12 with hrdef
  have hr12 : 0 ≤ r := by rw [hrdef]; positivity
  set pay := monthlyPaymentQ t with hpaydef
  have hpay0 : 0 < pay := monthlyPaymentQ_pos t hP hr hn
  have hrP : ∀ x : ℚ, 0 ≤ x → x ≤ t.principal → r * x < pay := by
    intro x hx0 hxP
    rcases eq_or_lt_of_le hr12 with h0 | hpos
    · rw [← h0]; simpa using hpay0
    · calc r * x ≤ r * t.principal := mul_le_mul_of_nonneg_left hxP hr12
        _ < pay := rate_mul_principal_lt_payment t hP hpos hn
  have hphiP : ∀ k : ℕ, max 0 (annuityPhi t.principal pay r k) ≤ t.principal := by
    intro k
    exact max_le hP.le (annuityPhi_le_principal_all t hP hr hn k)
  intro fuel
  induction fuel with
  | zero =>
    intro k step rem hrem hphi hterm
    have hk : t.termMonths ≤ k := by omega
    have hnp : annuityPhi t.principal pay r k ≤ 0 :=
      annuityPhi_nonpos_of_term_le t hP hr hn hk
    have hmax : max 0 (annuityPhi t.principal pay r k) = 0 := max_eq_left hnp
    rw [hmax] at hphi
    exact ⟨[], rem, rfl, le_trans hphi futureEps_pos.le⟩
  | succ fuel ih =>
    intro k step rem hrem hphi hterm
    by_cases hstop : rem ≤ futureEps
    · exact ⟨[], rem, by rw [futureLoop, if_pos hstop], hstop⟩
    · have hremP : rem ≤ t.principal := le_trans hphi (hphiP k)
      have hpr : r * rem < pay := hrP rem hrem hremP
      obtain ⟨e, hstep, hdate, hip, hint, h0, hlerem, hphi'⟩ :=
        futureStep_spec pay r eAsOf extraMap step rem hr12 hrem hpr hmap
      have hphik : 0 ≤ annuityPhi t.principal pay r k := by
        by_contra hneg
        push_neg at hneg
        have : max 0 (annuityPhi t.principal pay r k) = 0 := max_eq_left hneg.le
        rw [this] at hphi
        exact hstop (le_trans hphi futureEps_pos.le)
      have hrem' : e.remaining ≤ max 0 (annuityPhi t.principal pay r (k + 1)) := by
        have h1 : rem * (1 + r) - pay ≤ annuityPhi t.principal pay r (k + 1) := by
          have hle : rem ≤ annuityPhi t.principal pay r k := by
            rwa [max_eq_right hphik] at hphi
          have := mul_le_mul_of_nonneg_right hle (by linarith : (0:ℚ) ≤ 1 + r)
          show rem * (1 + r) - pay ≤ annuityPhi t.principal pay r k * (1 + r) - pay
          linarith
        calc e.remaining ≤ max 0 (rem * (1 + r) - pay) := hphi'
          _ ≤ max 0 (annuityPhi t.principal pay r (k + 1)) :=
            max_le_max (le_refl 0) h1
      obtain ⟨sched, fin, hrec, hfin⟩ := ih (k + 1) (step + 1) e.remaining h0 hrem'
        (by omega)
      refine ⟨e :: sched, fin, ?_, hfin⟩
      rw [futureLoop, if_neg hstop, hstep]
      simp only [bind, Except.bind]
      rw [hrec]
      rfl

/-- `simulateFutureFromAsOf` succeeds (no negative-amortization and no
convergence error) whenever the terms are valid, the starting balance lies in
[0, principal], and the extra map is non-negative. -/
theorem simulateFutureFromAsOf_ok (t : MortgageOriginalTerms) (hP : 0 < t.principal)
    (hr : 0 ≤ t.annualRate) (hn : t.termMonths ≠ 0) (rem0 : ℚ) (eAsOf : ISODate)
    (extraMap : ExtraMap) (hmap : MapNonneg extraMap) (hrem0 : 0 ≤ rem0)
    (hremP : rem0 ≤ t.principal) :
    ∃ res, simulateFutureFromAsOf t rem0 eAsOf extraMap = .ok res := by
  have hphi0 : rem0 ≤ max 0 (annuityPhi t.principal (monthlyPaymentQ t)
      (t.annualRate / 12) 0) := by
    have : annuityPhi t.principal (monthlyPaymentQ t) (t.annualRate / 12) 0 =
        t.principal := rfl
    rw [this, max_eq_right hP.le]
    exact hremP
  obtain ⟨sched, fin, hloop, hfin⟩ :=
    futureLoop_converges t hP hr hn eAsOf extraMap hmap (t.termMonths + 600) 0 1 rem0
      hrem0 hphi0 (by omega)
  refine ⟨{ futureSchedule := sched,
            totalInterestFuture := (sched.map (fun e => e.interest)).sum }, ?_⟩
  rw [simulateFutureFromAsOf,
    computeMonthlyPayment_eq_ok t hP hn]
  simp only [bind, Except.bind]
  rw [hloop]
  dsimp only
  rw [if_neg (not_lt.mpr hfin)]
  rfl

-- ---------- C5 ----------

theorem computeMonthlyPayment_error_msg (t : MortgageOriginalTerms) (m : String)
    (h : computeMonthlyPayment t = .error m) :
    m = "principal must be positive" ∨ m = "termMonths must be positive" := by
  unfold computeMonthlyPayment at h
  dsimp only at h
  split_ifs at h <;> simp only [Except.error.injEq] at h <;> simp_all

theorem futureStep_error_msg (pay r : ℚ) (eAsOf : ISODate) (extraMap : ExtraMap)
    (step : ℕ) (rem : ℚ) (m : String)
    (h : futureStep pay r eAsOf extraMap step rem = .error m) :
    m = "Monthly payment is too small to amortize the loan." := by
  rw [futureStep] at h
  dsimp only at h
  split_ifs at h <;> simp only [Except.error.injEq] at h <;> simp_all

theorem futureLoop_error_msg (pay r : ℚ) (eAsOf : ISODate) (extraMap : ExtraMap) :
    ∀ fuel step rem m,
      futureLoop pay r eAsOf extraMap fuel step rem = .error m →
      m = "Monthly payment is too small to amortize the loan." := by
  intro fuel
  induction fuel with
  | zero => intro step rem m h; simp [futureLoop] at h
  | succ fuel ih =>
    intro step rem m h
    by_cases hstop : rem ≤ futureEps
    · rw [futureLoop, if_pos hstop] at h; simp at h
    · rw [futureLoop, if_neg hstop] at h
      rcases hstep : futureStep pay r eAsOf extraMap step rem with err | e
      · rw [hstep] at h
        simp only [bind, Except.bind, Except.error.injEq] at h
        subst h
        exact futureStep_error_msg pay r eAsOf extraMap step rem err hstep
      · rw [hstep] at h
        simp only [bind, Except.bind] at h
        rcases hrec : futureLoop pay r eAsOf extraMap fuel (step + 1) e.remaining
            with err | sr
        · rw [hrec] at h
          simp only [Except.error.injEq] at h
          subst h
          exact ih (step + 1) e.remaining err hrec
        · rw [hrec] at h
          exact absurd h (by simp [pure, Except.pure])

/-- A successful future-loop run at positive fuel with an empty schedule must
have started at or below the payoff threshold. -/
theorem futureLoop_ok_nil (pay r : ℚ) (eAsOf : ISODate) (extraMap : ExtraMap)
    (fuel step : ℕ) (rem fin : ℚ)
    (h : futureLoop pay r eAsOf extraMap (fuel + 1) step rem = .ok ([], fin)) :
    rem ≤ futureEps := by
  by_cases hstop : rem ≤ futureEps
  · exact hstop
  · exfalso
    rw [futureLoop, if_neg hstop] at h
    rcases hstep : futureStep pay r eAsOf extraMap step rem with err | e
    · rw [hstep] at h; simp [bind, Except.bind] at h
    · rw [hstep] at h
      simp only [bind, Except.bind] at h
      rcases hrec : futureLoop pay r eAsOf extraMap fuel (step + 1) e.remaining
          with err | sr
      · rw [hrec] at h; simp at h
      · rw [hrec] at h
        have := Except.ok.inj h
        simp at this

/--
C5 (confirmed): the future simulation used by `runMortgageScenarios` always
terminates — it is a loop with a hard budget of `termMonths + 600` monthly
steps (the schedule can never be longer); it stops as soon as the remaining
balance is ≤ 0.01 (every non-final entry is still above 0.01, the final
balance at success is ≤ 0.01, and an empty schedule means the starting
balance was already ≤ 0.01); and it raises the convergence error exactly when
the loop has consumed the whole step budget with the balance still above
0.01.
-/
theorem simulateFutureFromAsOf_termination (t : MortgageOriginalTerms) (rem0 : ℚ)
    (eAsOf : ISODate) (extraMap : ExtraMap) :
    (∀ res, simulateFutureFromAsOf t rem0 eAsOf extraMap = .ok res →
      res.futureSchedule.length ≤ t.termMonths + 600 ∧
      (∀ k, (h : k + 1 < res.futureSchedule.length) →
        futureEps < (res.futureSchedule.get ⟨k, by omega⟩).remaining) ∧
      (∀ e, res.futureSchedule.getLast? = some e → e.remaining ≤ futureEps) ∧
      (res.futureSchedule = [] → rem0 ≤ futureEps)) ∧
    (simulateFutureFromAsOf t rem0 eAsOf extraMap =
        .error "Future simulation did not converge." ↔
      ∃ pay sched fin, computeMonthlyPayment t = .ok pay ∧
        futureLoop pay (t.annualRate / 12) eAsOf extraMap (t.termMonths + 600) 1 rem0 =
          .ok (sched, fin) ∧
        sched.length = t.termMonths + 600 ∧ futureEps < fin) := by
  constructor
  · intro res hok
    rw [simulateFutureFromAsOf] at hok
    rcases hpay : computeMonthlyPayment t with err | pay
    · rw [hpay] at hok; simp [bind, Except.bind] at hok
    · rw [hpay] at hok
      simp only [bind, Except.bind] at hok
      rcases hloop : futureLoop pay (t.annualRate / 12) eAsOf extraMap
          (t.termMonths + 600) 1 rem0 with err | sr
      · rw [hloop] at hok; simp at hok
      · obtain ⟨sched, fin⟩ := sr
        rw [hloop] at hok
        dsimp only at hok
        split_ifs at hok with hconv
        have hok2 : _ = res := Except.ok.inj hok
        subst hok2
        push_neg at hconv
        refine ⟨?_, ?_, ?_, ?_⟩
        · exact futureLoop_length pay (t.annualRate / 12) eAsOf extraMap _ 1 rem0
            sched fin hloop
        · intro k hk
          exact futureLoop_nonfinal pay (t.annualRate / 12) eAsOf extraMap _ 1 rem0
            sched fin hloop k hk
        · intro e he
          have hfin := (futureLoop_fin pay (t.annualRate / 12) eAsOf extraMap _ 1 rem0
            sched fin hloop).2 e he
          rw [← hfin]
          exact hconv
        · intro hnil
          subst hnil
          have hfin := (futureLoop_fin pay (t.annualRate / 12) eAsOf extraMap _ 1 rem0
            [] fin hloop).1 rfl
          rw [← hfin]
          exact hconv
  · constructor
    · intro herr
      rw [simulateFutureFromAsOf] at herr
      rcases hpay : computeMonthlyPayment t with err | pay
      · rw [hpay] at herr
        simp only [bind, Except.bind, Except.error.injEq] at herr
        rcases computeMonthlyPayment_error_msg t err hpay with h | h <;> simp [h] at herr
      · rw [hpay] at herr
        simp only [bind, Except.bind] at herr
        rcases hloop : futureLoop pay (t.annualRate / 12) eAsOf extraMap
            (t.termMonths + 600) 1 rem0 with err | sr
        · rw [hloop] at herr
          simp only [Except.error.injEq] at herr
          have := futureLoop_error_msg pay (t.annualRate / 12) eAsOf extraMap _ 1 rem0
            err hloop
          rw [this] at herr
          simp at herr
        · obtain ⟨sched, fin⟩ := sr
          rw [hloop] at herr
          dsimp only at herr
          split_ifs at herr with hconv
          · exact ⟨pay, sched, fin, rfl, hloop,
              futureLoop_full pay (t.annualRate / 12) eAsOf extraMap _ 1 rem0
                sched fin hloop hconv, hconv⟩
          · exact absurd herr (by simp [pure, Except.pure])
    · rintro ⟨pay, sched, fin, hpay, hloop, hlen, hconv⟩
      rw [simulateFutureFromAsOf, hpay]
      simp only [bind, Except.bind]
      rw [hloop]
      dsimp only
      rw [if_pos hconv]

/-- C5 (witness): a zero-rate one-month loan from balance 100 simulates to a
single-entry schedule within the budget of 601 steps, with no error. -/
theorem simulateFutureFromAsOf_termination_witness :
    ∃ res, simulateFutureFromAsOf ⟨100, 0, 1, ⟨2025, 1, 1⟩⟩ 100 ⟨2025, 1, 1⟩ [] =
        .ok res ∧
      res.futureSchedule.length ≤ 1 + 600 ∧
      (∀ e, res.futureSchedule.getLast? = some e → e.remaining ≤ futureEps) := by
  obtain ⟨res, hres⟩ := simulateFutureFromAsOf_ok ⟨100, 0, 1, ⟨2025, 1, 1⟩⟩
    (by norm_num) (by norm_num) (by norm_num) 100 ⟨2025, 1, 1⟩ []
    (by intro pr hpr; simp at hpr) (by norm_num) (by norm_num)
  obtain ⟨h1, -, h3, -⟩ :=
    (simulateFutureFromAsOf_termination ⟨100, 0, 1, ⟨2025, 1, 1⟩⟩ 100
      ⟨2025, 1, 1⟩ []).1 res hres
  exact ⟨res, hres, h1, h3⟩

-- ---------- C6 ----------

/-- `computeMortgageWithPrepayments` succeeds for valid terms and
non-negative prepayment amounts. -/
theorem computeMortgageWithPrepayments_ok (t : MortgageOriginalTerms)
    (prepays : PastPrepaymentLog) (hv : ValidTerms t)
    (hpos : ∀ p ∈ prepays, 0 ≤ p.amount) :
    ∃ res, computeMortgageWithPrepayments t prepays = .ok res ∧
      res.schedule =
        (historyLoop t.startDate (t.annualRate / 12) (monthlyPaymentQ t) t.termMonths 0
          t.principal
          (prepays.insertionSort (fun a b => dateLE a.date b.date))).toOption.getD [] := by
  obtain ⟨hP, hr, hn, hd⟩ := hv
  have hr12 : (0:ℚ) ≤ t.annualRate / 12 := by positivity
  have hrP : t.annualRate / 12 * t.principal ≤ monthlyPaymentQ t := by
    rcases eq_or_lt_of_le hr12 with h0 | hpos'
    · rw [← h0]
      simpa using (monthlyPaymentQ_pos t hP hr (by omega)).le
    · exact (rate_mul_principal_lt_payment t hP hpos' (by omega)).le
  have hsorted : ∀ p ∈ prepays.insertionSort (fun a b => dateLE a.date b.date),
      0 ≤ p.amount := by
    intro p hp
    exact hpos p ((List.mem_insertionSort _).mp hp)
  obtain ⟨sched, hok, -, -, -⟩ :=
    historyLoop_invariants t.startDate (t.annualRate / 12) (monthlyPaymentQ t) hr12
      t.termMonths 0 t.principal
      (prepays.insertionSort (fun a b => dateLE a.date b.date)) hP.le hrP hsorted
  refine ⟨{ schedule := sched, totalInterest := (sched.map (fun e => e.interest)).sum,
            payoffDate := ((sched.getLast?).map (fun e => e.date)).getD t.startDate },
    ?_, ?_⟩
  · rw [computeMortgageWithPrepayments, computeMonthlyPayment_eq_ok t hP (by omega)]
    simp only [bind, Except.bind]
    rw [hok]
    rfl
  · rw [hok]
    rfl

/--
C6 (confirmed): the history amortizer raises an error exactly at a reached
period whose contractual principal component (payment minus interest) is
negative; the scenario future simulation likewise fails loudly when the
payment cannot make progress (principal component ≤ 0); and otherwise — for
valid terms, non-negative prepayment amounts, a non-negative extra map and a
starting balance within [0, principal] — both computations complete normally.
-/
theorem negativeAmortization_error_handling :
    (∀ (s : ISODate) (r pay : ℚ) (fuel i : ℕ) (rem : ℚ)
        (pending : List PastPrepayment),
      schedEps < rem → pay - (if 0 < r then rem * r else 0) < 0 →
      historyLoop s r pay (fuel + 1) i rem pending =
        .error "Monthly payment too low to amortize the loan.") ∧
    (∀ (pay r : ℚ) (eAsOf : ISODate) (extraMap : ExtraMap) (fuel step : ℕ) (rem : ℚ),
      futureEps < rem → pay - (if 0 < r then rem * r else 0) ≤ 0 →
      futureLoop pay r eAsOf extraMap (fuel + 1) step rem =
        .error "Monthly payment is too small to amortize the loan.") ∧
    (∀ (t : MortgageOriginalTerms) (prepays : PastPrepaymentLog), ValidTerms t →
      (∀ p ∈ prepays, 0 ≤ p.amount) →
      ∃ res, computeMortgageWithPrepayments t prepays = .ok res) ∧
    (∀ (t : MortgageOriginalTerms) (rem0 : ℚ) (eAsOf : ISODate)
        (extraMap : ExtraMap), ValidTerms t → MapNonneg extraMap →
      0 ≤ rem0 → rem0 ≤ t.principal →
      ∃ res, simulateFutureFromAsOf t rem0 eAsOf extraMap = .ok res) := by
  refine ⟨?_, ?_, ?_, ?_⟩
  · intro s r pay fuel i rem pending hrem hneg
    rw [historyLoop, if_neg (not_le.mpr hrem)]
    rw [historyStep]
    dsimp only
    rw [if_pos hneg]
    rfl
  · intro pay r eAsOf extraMap fuel step rem hrem hneg
    rw [futureLoop, if_neg (not_le.mpr hrem)]
    rw [futureStep]
    dsimp only
    rw [if_pos hneg]
    rfl
  · intro t prepays hv hpos
    obtain ⟨res, hres, -⟩ := computeMortgageWithPrepayments_ok t prepays hv hpos
    exact ⟨res, hres⟩
  · intro t rem0 eAsOf extraMap hv hmap h0 hP
    exact simulateFutureFromAsOf_ok t hv.1 hv.2.1
      (Nat.pos_iff_ne_zero.mp hv.2.2.1) rem0 eAsOf extraMap hmap h0 hP

/-- C6 (witness): the error branches fire at a balance of 1 with a payment of
-1 (resp. 0), and both amortizers complete normally on a 100-unit zero-rate
one-year loan. -/
theorem negativeAmortization_error_handling_witness :
    historyLoop ⟨2025, 1, 1⟩ 0 (-1) 1 0 1 [] =
        .error "Monthly payment too low to amortize the loan." ∧
      futureLoop 0 0 ⟨2025, 1, 1⟩ [] 1 1 1 =
        .error "Monthly payment is too small to amortize the loan." ∧
      (∃ res, computeMortgageWithPrepayments ⟨100, 0, 12, ⟨2025, 1, 1⟩⟩ [] = .ok res) ∧
      (∃ res, simulateFutureFromAsOf ⟨100, 0, 12, ⟨2025, 1, 1⟩⟩ 50 ⟨2025, 1, 1⟩ [] =
        .ok res) := by
  obtain ⟨h1, h2, h3, h4⟩ := negativeAmortization_error_handling
  refine ⟨?_, ?_, ?_, ?_⟩
  · exact h1 ⟨2025, 1, 1⟩ 0 (-1) 0 0 1 [] (by norm_num [schedEps]) (by norm_num)
  · exact h2 0 0 ⟨2025, 1, 1⟩ [] 0 1 1 (by norm_num [futureEps]) (by norm_num)
  · exact h3 ⟨100, 0, 12, ⟨2025, 1, 1⟩⟩ []
      ⟨by norm_num, by norm_num, by norm_num, by decide⟩ (by simp)
  · exact h4 ⟨100, 0, 12, ⟨2025, 1, 1⟩⟩ 50 ⟨2025, 1, 1⟩ []
      ⟨by norm_num, by norm_num, by norm_num, by decide⟩
      (by intro pr hpr; simp at hpr) (by norm_num) (by norm_num)

-- ---------- Result inversion lemmas ----------

theorem computeBaselineMortgage_inv (t : MortgageOriginalTerms)
    (res : MortgageBaselineResult) (hP : 0 < t.principal) (hn : t.termMonths ≠ 0)
    (h : computeBaselineMortgage t = .ok res) :
    res.schedule =
      baselineLoop t.startDate (t.annualRate / 12) (monthlyPaymentQ t) t.termMonths 0
        t.principal ∧
    res.totalInterest = (res.schedule.map (fun e => e.interest)).sum ∧
    res.payoffDate = ((res.schedule.getLast?).map (fun e => e.date)).getD t.startDate := by
  rw [computeBaselineMortgage, computeMonthlyPayment_eq_ok t hP hn] at h
  simp only [bind, Except.bind] at h
  have h2 : _ = res := Except.ok.inj h
  subst h2
  exact ⟨rfl, rfl, rfl⟩

theorem computeMortgageWithPrepayments_inv (t : MortgageOriginalTerms)
    (prepays : PastPrepaymentLog) (res : MortgageHistoryResult)
    (hP : 0 < t.principal) (hn : t.termMonths ≠ 0)
    (h : computeMortgageWithPrepayments t prepays = .ok res) :
    historyLoop t.startDate (t.annualRate / 12) (monthlyPaymentQ t) t.termMonths 0
      t.principal (prepays.insertionSort (fun a b => dateLE a.date b.date)) =
      .ok res.schedule ∧
    res.totalInterest = (res.schedule.map (fun e => e.interest)).sum ∧
    res.payoffDate = ((res.schedule.getLast?).map (fun e => e.date)).getD t.startDate := by
  rw [computeMortgageWithPrepayments, computeMonthlyPayment_eq_ok t hP hn] at h
  simp only [bind, Except.bind] at h
  rcases hloop : historyLoop t.startDate (t.annualRate / 12) (monthlyPaymentQ t)
      t.termMonths 0 t.principal
      (prepays.insertionSort (fun a b => dateLE a.date b.date)) with err | sched
  · rw [hloop] at h; simp at h
  · rw [hloop] at h
    have h2 : _ = res := Except.ok.inj h
    subst h2
    exact ⟨rfl, rfl, rfl⟩

theorem simulateFutureFromAsOf_inv (t : MortgageOriginalTerms) (rem0 : ℚ)
    (eAsOf : ISODate) (extraMap : ExtraMap) (res : FutureSimulationResult)
    (hP : 0 < t.principal) (hn : t.termMonths ≠ 0)
    (h : simulateFutureFromAsOf t rem0 eAsOf extraMap = .ok res) :
    ∃ fin, futureLoop (monthlyPaymentQ t) (t.annualRate / 12) eAsOf extraMap
        (t.termMonths + 600) 1 rem0 = .ok (res.futureSchedule, fin) ∧ fin ≤ futureEps ∧
      res.totalInterestFuture = (res.futureSchedule.map (fun e => e.interest)).sum := by
  rw [simulateFutureFromAsOf, computeMonthlyPayment_eq_ok t hP hn] at h
  simp only [bind, Except.bind] at h
  rcases hloop : futureLoop (monthlyPaymentQ t) (t.annualRate / 12) eAsOf extraMap
      (t.termMonths + 600) 1 rem0 with err | sr
  · rw [hloop] at h; simp at h
  · obtain ⟨sched, fin⟩ := sr
    rw [hloop] at h
    dsimp only at h
    split_ifs at h with hconv
    have h2 : _ = res := Except.ok.inj h
    subst h2
    exact ⟨fin, rfl, not_lt.mp hconv, rfl⟩

-- ---------- C2: per-entry identity and remaining-balance claims ----------

/-- Concrete evaluation of the history amortizer on a 3-month zero-rate loan
with one mid-schedule prepayment (monthly payment 100; extra 50 due in month
two). -/
theorem histSmall_eval :
    computeMortgageWithPrepayments ⟨300, 0, 3, ⟨2025, 1, 1⟩⟩ [⟨⟨2025, 2, 1⟩, 50⟩] =
      .ok ⟨[⟨⟨2025, 1, 1⟩, 100, 0, 100, 200⟩,
            ⟨⟨2025, 2, 1⟩, 150, 0, 100, 50⟩,
            ⟨⟨2025, 3, 1⟩, 100, 0, 50, 0⟩], 0, ⟨2025, 3, 1⟩⟩ := by
  norm_num [computeMortgageWithPrepayments, computeMonthlyPayment, historyLoop,
    historyStep, dueAt, notDueAt, addMonths, dateLE, ISODate.key, daysInMonth,
    schedEps, List.insertionSort, List.orderedInsert, bind, Except.bind,
    List.takeWhile, List.dropWhile, pure, Except.pure]

/-- Concrete evaluation of the baseline amortizer on a zero-rate loan whose
balance drops below the 1e-6 epsilon while still nonzero. -/
theorem baseTiny_eval :
    computeBaselineMortgage ⟨3 / 2000000, 0, 2, ⟨2025, 1, 1⟩⟩ =
      .ok ⟨[⟨⟨2025, 1, 1⟩, 3 / 4000000, 0, 3 / 4000000, 3 / 4000000⟩], 0,
        ⟨2025, 1, 1⟩⟩ := by
  norm_num [computeBaselineMortgage, computeMonthlyPayment, baselineLoop, addMonths,
    daysInMonth, schedEps, bind, Except.bind, pure, Except.pure]

/-- **C2, counterexample.**  The claimed per-entry identity
`interest + principal = payment` fails in the history amortizer for a
mid-schedule (non-final) entry: with terms (300, 0%, 3 months) and a 50
prepayment due in month two, the second of three entries records payment 150
(contractual 100 plus the extra 50) but interest + principal = 0 + 100.  And
the remaining balance need not reach exactly 0: with principal 3/2000000 the
baseline schedule's only entry ends at remaining 3/4000000, below the 1e-6
stop threshold but nonzero. -/
theorem schedule_identity_counterexample :
    (∃ res, computeMortgageWithPrepayments ⟨300, 0, 3, ⟨2025, 1, 1⟩⟩
        [⟨⟨2025, 2, 1⟩, 50⟩] = .ok res ∧
      res.schedule.length = 3 ∧
      ∃ e, res.schedule[1]? = some e ∧ e.interest + e.principal ≠ e.payment) ∧
    (∃ res, computeBaselineMortgage ⟨3 / 2000000, 0, 2, ⟨2025, 1, 1⟩⟩ = .ok res ∧
      res.schedule ≠ [] ∧ ∀ e ∈ res.schedule, e.remaining ≠ 0) := by
  constructor
  · refine ⟨_, histSmall_eval, rfl, ⟨⟨2025, 2, 1⟩, 150, 0, 100, 50⟩, rfl, ?_⟩
    norm_num
  · refine ⟨_, baseTiny_eval, by simp, ?_⟩
    intro e he
    have he2 := List.mem_singleton.mp he
    subst he2
    norm_num

/-- **C2, amended.**  For valid terms: every baseline entry satisfies
`interest + principal = payment` exactly, and so does every future-simulation
entry; a history entry satisfies `interest + principal ≤ payment`, with
equality whenever the entry carries no extra payment (payment equal to the
contractual one) and the loan is not being paid off (remaining still
positive).  In each producer the remaining balance is monotonically
non-increasing along the schedule, the schedule length is bounded by the
loop's fuel (termMonths for the amortizers, termMonths + 600 for the future
simulation), and the final entry's remaining balance is at most the
producer's stop threshold (1e-6, resp. 0.01) — not necessarily exactly 0. -/
theorem schedule_invariants_amended (t : MortgageOriginalTerms) (hv : ValidTerms t) :
    (∀ res, computeBaselineMortgage t = .ok res →
      (∀ e ∈ res.schedule, e.interest + e.principal = e.payment) ∧
      List.Chain' (fun a b => b.remaining ≤ a.remaining) res.schedule ∧
      res.schedule.length ≤ t.termMonths ∧
      (∀ e, res.schedule.getLast? = some e → e.remaining ≤ schedEps)) ∧
    (∀ prepays res, (∀ p ∈ prepays, 0 ≤ p.amount) →
      computeMortgageWithPrepayments t prepays = .ok res →
      (∀ e ∈ res.schedule, e.interest + e.principal ≤ e.payment ∧
        (e.payment = monthlyPaymentQ t → 0 < e.remaining →
          e.interest + e.principal = e.payment)) ∧
      List.Chain' (fun a b => b.remaining ≤ a.remaining) res.schedule ∧
      res.schedule.length ≤ t.termMonths ∧
      (∀ e, res.schedule.getLast? = some e → e.remaining ≤ schedEps)) ∧
    (∀ rem0 eAsOf extraMap res, MapNonneg extraMap → 0 ≤ rem0 → rem0 ≤ t.principal →
      simulateFutureFromAsOf t rem0 eAsOf extraMap = .ok res →
      (∀ e ∈ res.futureSchedule, e.interest + e.principal = e.payment) ∧
      List.Chain' (fun a b => b.remaining ≤ a.remaining) res.futureSchedule ∧
      res.futureSchedule.length ≤ t.termMonths + 600 ∧
      (∀ e, res.futureSchedule.getLast? = some e → e.remaining ≤ futureEps)) := by
  obtain ⟨hP, hr, hn0, _⟩ := hv
  have hn : t.termMonths ≠ 0 := Nat.pos_iff_ne_zero.mp hn0
  have hr12 : (0:ℚ) ≤ t.annualRate / 12 := by positivity
  have hpay0 : 0 < monthlyPaymentQ t := monthlyPaymentQ_pos t hP hr hn
  have hrP : ∀ x : ℚ, 0 ≤ x → x ≤ t.principal →
      t.annualRate / 12 * x ≤ monthlyPaymentQ t := by
    intro x hx0 hxP
    rcases eq_or_lt_of_le hr12 with h0 | hpos
    · rw [← h0, zero_mul]
      exact hpay0.le
    · calc t.annualRate / 12 * x ≤ t.annualRate / 12 * t.principal :=
            mul_le_mul_of_nonneg_left hxP hr12
        _ ≤ monthlyPaymentQ t := (rate_mul_principal_lt_payment t hP hpos hn).le
  refine ⟨?_, ?_, ?_⟩
  · -- baseline
    intro res hres
    obtain ⟨hsched, _, _⟩ := computeBaselineMortgage_inv t res hP hn hres
    have hpay := baselineLoop_payment t.startDate (t.annualRate / 12)
      (monthlyPaymentQ t) t.termMonths 0 t.principal
    have hrem := baselineLoop_remaining t.startDate (t.annualRate / 12)
      (monthlyPaymentQ t) hr12 t.termMonths 0 t.principal hP.le
      (hrP t.principal hP.le le_rfl)
    refine ⟨?_, ?_, ?_, ?_⟩
    · intro e he
      rw [hsched] at he
      obtain ⟨h1, h2⟩ := hpay e he
      rw [h1, h2]
    · rw [hsched]
      exact hrem.2
    · rw [hsched]
      exact baselineLoop_length _ _ _ _ _ _
    · intro e hlast
      rw [hsched] at hlast
      exact baselineLoop_last_remaining t hP hr hn t.termMonths 0 (Nat.add_zero _) e hlast
  · -- history
    intro prepays res hpre hres
    obtain ⟨hsched, _, _⟩ := computeMortgageWithPrepayments_inv t prepays res hP hn hres
    have hpend : ∀ p ∈ prepays.insertionSort (fun a b => dateLE a.date b.date),
        0 ≤ p.amount := by
      intro p hp
      exact hpre p ((List.mem_insertionSort _).mp hp)
    obtain ⟨sched, hok, hlen, hmem, hchain⟩ :=
      historyLoop_invariants t.startDate (t.annualRate / 12) (monthlyPaymentQ t) hr12
        t.termMonths 0 t.principal
        (prepays.insertionSort (fun a b => dateLE a.date b.date)) hP.le
        (hrP t.principal hP.le le_rfl) hpend
    rw [hsched] at hok
    have hs : sched = res.schedule := (Except.ok.inj hok).symm
    subst hs
    refine ⟨?_, hchain, hlen, ?_⟩
    · intro e he
      obtain ⟨_, _, _, h4, h5⟩ := hmem e he
      exact ⟨h4, h5⟩
    · intro e hlast
      exact historyLoop_last_le_eps t hP hr hn t.termMonths 0 t.principal
        (prepays.insertionSort (fun a b => dateLE a.date b.date)) (Nat.add_zero _)
        hP.le le_rfl hpend res.schedule e hsched hlast
  · -- future simulation
    intro rem0 eAsOf extraMap res hmap hrem0 hremP hres
    obtain ⟨fin, hloop, hfin, _⟩ :=
      simulateFutureFromAsOf_inv t rem0 eAsOf extraMap res hP hn hres
    have hlt : t.annualRate / 12 * rem0 < monthlyPaymentQ t := by
      rcases eq_or_lt_of_le hr12 with h0 | hpos
      · rw [← h0, zero_mul]
        exact hpay0
      · calc t.annualRate / 12 * rem0 ≤ t.annualRate / 12 * t.principal :=
              mul_le_mul_of_nonneg_left hremP hr12
          _ < monthlyPaymentQ t := rate_mul_principal_lt_payment t hP hpos hn
    obtain ⟨sched, fin2, hok, _, hmem, hchain, _, _, _⟩ :=
      futureLoop_invariants (monthlyPaymentQ t) (t.annualRate / 12) eAsOf extraMap
        hr12 hmap (t.termMonths + 600) 1 rem0 hrem0 hlt
    rw [hloop] at hok
    have hpair : (sched, fin2) = (res.futureSchedule, fin) := (Except.ok.inj hok).symm
    have hs : sched = res.futureSchedule := congrArg Prod.fst hpair
    subst hs
    refine ⟨?_, hchain, ?_, ?_⟩
    · intro e he
      exact (hmem e he).2.2
    · exact futureLoop_length _ _ _ _ _ _ _ _ _ hloop
    · intro e hlast
      obtain ⟨_, h2⟩ := futureLoop_fin (monthlyPaymentQ t) (t.annualRate / 12) eAsOf
        extraMap (t.termMonths + 600) 1 rem0 res.futureSchedule fin hloop
      rw [← h2 e hlast]
      exact hfin

/-- Instantiation of the amended schedule invariants on the concrete 3-month
history run: the remaining balances 200, 50, 0 are non-increasing and the
schedule fits in the 3-month term. -/
theorem schedule_invariants_amended_witness :
    ValidTerms ⟨300, 0, 3, ⟨2025, 1, 1⟩⟩ ∧
    List.Chain' (fun a b => b.remaining ≤ a.remaining)
      ([⟨⟨2025, 1, 1⟩, 100, 0, 100, 200⟩,
        ⟨⟨2025, 2, 1⟩, 150, 0, 100, 50⟩,
        ⟨⟨2025, 3, 1⟩, 100, 0, 50, 0⟩] : List AmortizationEntry) ∧
    ([⟨⟨2025, 1, 1⟩, 100, 0, 100, 200⟩,
      ⟨⟨2025, 2, 1⟩, 150, 0, 100, 50⟩,
      ⟨⟨2025, 3, 1⟩, 100, 0, 50, 0⟩] : List AmortizationEntry).length ≤ 3 := by
  have hv : ValidTerms ⟨300, 0, 3, ⟨2025, 1, 1⟩⟩ := by
    refine ⟨by norm_num, le_refl 0, by norm_num, ?_⟩
    constructor
    · norm_num
    constructor
    · norm_num
    constructor
    · norm_num
    · norm_num [daysInMonth]
  have h := (schedule_invariants_amended ⟨300, 0, 3, ⟨2025, 1, 1⟩⟩ hv).2.1
    [⟨⟨2025, 2, 1⟩, 50⟩]
    ⟨[⟨⟨2025, 1, 1⟩, 100, 0, 100, 200⟩,
      ⟨⟨2025, 2, 1⟩, 150, 0, 100, 50⟩,
      ⟨⟨2025, 3, 1⟩, 100, 0, 50, 0⟩], 0, ⟨2025, 3, 1⟩⟩
    (by
      intro p hp
      have hp2 := List.mem_singleton.mp hp
      subst hp2
      norm_num)
    histSmall_eval
  exact ⟨hv, h.2.1, h.2.2.1⟩

-- ---------- C3: the as-of slice of the actual schedule ----------

/-- Along a history schedule the entry dates are strictly increasing (entry k
is dated `addMonths start (i+k)` and the date key grows with the month
offset). -/
theorem historyLoop_dates_sorted (s : ISODate) (hvs : s.Valid) (r pay : ℚ)
    (fuel i : ℕ) (rem : ℚ) (pending : List PastPrepayment)
    (sched : List AmortizationEntry)
    (hok : historyLoop s r pay fuel i rem pending = .ok sched) :
    List.Pairwise (fun a b => a.date.key < b.date.key) sched := by
  rw [List.pairwise_iff_get]
  intro a b hab
  rw [historyLoop_dates s r pay fuel i rem pending sched hok a a.isLt,
      historyLoop_dates s r pay fuel i rem pending sched hok b b.isLt]
  exact addMonths_key_strictMono s hvs
    (by exact_mod_cast Nat.add_lt_add_left hab i)

/-- On a list sorted by strictly increasing date key, the leading run of
entries dated at or before `d` (the source's forward scan with break) is the
set of all such entries. -/
theorem takeWhile_eq_filter_of_sorted (d : ISODate) :
    ∀ l : List AmortizationEntry,
      List.Pairwise (fun a b => a.date.key < b.date.key) l →
      l.takeWhile (fun e => decide (dateLE e.date d)) =
        l.filter (fun e => decide (dateLE e.date d)) := by
  intro l
  induction l with
  | nil => intro _; rfl
  | cons x xs ih =>
    intro hp
    rw [List.pairwise_cons] at hp
    by_cases hx : dateLE x.date d
    · rw [List.takeWhile_cons_of_pos (by simpa using hx),
          List.filter_cons_of_pos (by simpa using hx), ih hp.2]
    · rw [List.takeWhile_cons_of_neg (by simpa using hx),
          List.filter_cons_of_neg (by simpa using hx)]
      symm
      rw [List.filter_eq_nil_iff]
      intro a ha
      have hlt := hp.1 a ha
      simp only [decide_eq_true_eq]
      unfold dateLE at hx ⊢
      omega

/-- Inversion of a successful scenario run into its phases and the result's
field values. -/
theorem runMortgageScenarios_inv (context : MortgageScenarioContext)
    (configs : List MortgageScenarioConfig) (res : MortgageScenarioRunResult)
    (hok : runMortgageScenarios context configs = .ok res) :
    ∃ baseline hist st fut summaries,
      computeBaselineMortgage context.terms = .ok baseline ∧
      computeMortgageWithPrepayments context.terms context.pastPrepayments = .ok hist ∧
      asOfState context.terms hist.schedule context.asOfDate = .ok st ∧
      simulateFutureFromAsOf context.terms st.remainingAtAsOf st.effectiveAsOf [] =
        .ok fut ∧
      scenarioLoop context baseline st (st.pastSchedule ++ fut.futureSchedule)
        (st.interestSoFar + fut.totalInterestFuture) configs = .ok summaries ∧
      res.asOfDate = context.asOfDate ∧
      res.effectiveAsOfDate = st.effectiveAsOf ∧
      res.baseline = baseline ∧
      res.actualInterestSoFar = st.interestSoFar ∧
      res.actualMonthsSoFar = st.monthsSoFar ∧
      res.scenarios = summaries := by
  rw [runMortgageScenarios] at hok
  simp only [bind, Except.bind, pure, Except.pure] at hok
  rcases hb : computeBaselineMortgage context.terms with err | baseline <;>
    rw [hb] at hok
  · simp at hok
  try dsimp only at hok
  rcases hh : computeMortgageWithPrepayments context.terms context.pastPrepayments with
    err | hist <;> rw [hh] at hok
  · simp at hok
  try dsimp only at hok
  rcases hs : asOfState context.terms hist.schedule context.asOfDate with err | st <;>
    rw [hs] at hok
  · simp at hok
  try dsimp only at hok
  rcases hf : simulateFutureFromAsOf context.terms st.remainingAtAsOf st.effectiveAsOf []
      with err | fut <;> rw [hf] at hok
  · simp at hok
  try dsimp only at hok
  by_cases hemp : (st.pastSchedule ++ fut.futureSchedule).isEmpty = true
  · rw [if_pos hemp] at hok
    try dsimp only at hok
    rcases hsl : scenarioLoop context baseline st
        (st.pastSchedule ++ fut.futureSchedule)
        (st.interestSoFar + fut.totalInterestFuture) configs with err | summaries <;>
      rw [hsl] at hok
    · simp at hok
    have h2 : _ = res := Except.ok.inj hok
    subst h2
    exact ⟨baseline, hist, st, fut, summaries, rfl, rfl, hs, hf, hsl,
      rfl, rfl, rfl, rfl, rfl, rfl⟩
  · rw [if_neg hemp] at hok
    try dsimp only at hok
    rcases her : computeEffectiveAnnualRateFromSchedule
        (st.pastSchedule ++ fut.futureSchedule) context.terms.principal with err | er <;>
      rw [her] at hok
    · simp at hok
    try dsimp only at hok
    rcases hsl : scenarioLoop context baseline st
        (st.pastSchedule ++ fut.futureSchedule)
        (st.interestSoFar + fut.totalInterestFuture) configs with err | summaries <;>
      rw [hsl] at hok
    · simp at hok
    have h2 : _ = res := Except.ok.inj hok
    subst h2
    exact ⟨baseline, hist, st, fut, summaries, rfl, rfl, hs, hf, hsl,
      rfl, rfl, rfl, rfl, rfl, rfl⟩

/-- **C3.**  In `runMortgageScenarios` the slice of the actual (history)
schedule at `asOfDate` is exactly the set of entries dated at or before
`asOfDate` (a prefix, since the schedule's dates strictly increase, so its
end is the last such entry).  When the slice is empty, the past prefix is
empty, `remainingAtAsOf` is the full principal, and the effective as-of date
is the first scheduled date; otherwise `remainingAtAsOf` and the effective
as-of date are the last slice entry's remaining and date, and the result's
`actualInterestSoFar` / `actualMonthsSoFar` are the slice's total interest
and row count. -/
theorem asOf_slicing_spec (context : MortgageScenarioContext)
    (configs : List MortgageScenarioConfig) (res : MortgageScenarioRunResult)
    (hv : ValidTerms context.terms)
    (hok : runMortgageScenarios context configs = .ok res) :
    ∃ hist st,
      computeMortgageWithPrepayments context.terms context.pastPrepayments = .ok hist ∧
      asOfState context.terms hist.schedule context.asOfDate = .ok st ∧
      res.effectiveAsOfDate = st.effectiveAsOf ∧
      res.actualInterestSoFar = st.interestSoFar ∧
      res.actualMonthsSoFar = st.monthsSoFar ∧
      st.pastSchedule =
        hist.schedule.filter (fun e => decide (dateLE e.date context.asOfDate)) ∧
      (st.pastSchedule = [] →
        st.remainingAtAsOf = context.terms.principal ∧
        st.interestSoFar = 0 ∧ st.monthsSoFar = 0 ∧
        ∀ first rest, hist.schedule = first :: rest → st.effectiveAsOf = first.date) ∧
      (∀ last, st.pastSchedule.getLast? = some last →
        st.remainingAtAsOf = last.remaining ∧
        st.effectiveAsOf = last.date ∧
        st.interestSoFar = (st.pastSchedule.map (fun e => e.interest)).sum ∧
        st.monthsSoFar = st.pastSchedule.length) := by
  obtain ⟨baseline, hist, st, fut, summaries, hb, hh, hs, hf, hsl, h1, h2, h3, h4, h5, h6⟩ :=
    runMortgageScenarios_inv context configs res hok
  obtain ⟨hP, hr, hn0, hvs⟩ := hv
  have hn := Nat.pos_iff_ne_zero.mp hn0
  obtain ⟨hloopEq, hti, hpd⟩ := computeMortgageWithPrepayments_inv context.terms
    context.pastPrepayments hist hP hn hh
  have hsorted := historyLoop_dates_sorted context.terms.startDate hvs _ _ _ _ _ _
    hist.schedule hloopEq
  have hTF := takeWhile_eq_filter_of_sorted context.asOfDate hist.schedule hsorted
  refine ⟨hist, st, hh, hs, h2, h4, h5, ?_⟩
  rcases hsched : hist.schedule with _ | ⟨first, rest0⟩
  · rw [hsched] at hs
    rw [asOfState] at hs
    simp only [bind, Except.bind, sliceScheduleUpTo] at hs
    simp at hs
  · rw [hsched] at hs hTF
    rw [asOfState] at hs
    simp only [bind, Except.bind, sliceScheduleUpTo] at hs
    rcases hlast : ((first :: rest0).takeWhile
        (fun e => decide (dateLE e.date context.asOfDate))).getLast? with _ | last
    · rw [hlast] at hs
      have hslice : (first :: rest0).takeWhile
          (fun e => decide (dateLE e.date context.asOfDate)) = [] := by
        rcases hsl2 : (first :: rest0).takeWhile
            (fun e => decide (dateLE e.date context.asOfDate)) with _ | ⟨a, l⟩
        · exact hsl2
        · rw [hsl2] at hlast
          simp at hlast
      try dsimp only at hs
      have hst : _ = st := Except.ok.inj hs
      subst hst
      refine ⟨by rw [← hTF, hslice], ?_, ?_⟩
      · intro _
        refine ⟨rfl, rfl, rfl, ?_⟩
        intro first2 rest2 heq
        have : first2 = first := (List.cons.injEq _ _ _ _ ▸ heq.symm).1
        rw [this]
      · intro last2 hl2
        simp at hl2
    · rw [hlast] at hs
      try dsimp only at hs
      rw [hlast] at hs
      try dsimp only at hs
      have hst : _ = st := Except.ok.inj hs
      subst hst
      refine ⟨hTF, ?_, ?_⟩
      · intro hnil
        dsimp only at hnil
        rw [hnil] at hlast
        simp at hlast
      · intro last2 hl2
        dsimp only at hl2
        rw [hlast] at hl2
        have : last = last2 := Option.some.inj hl2
        subst this
        exact ⟨rfl, rfl, rfl, rfl⟩

/-- Concrete evaluation of the scenario runner on a one-month loan whose
balance (1/200) is already below the future-simulation threshold, with no
scenarios and an as-of date before the first payment. -/
theorem runScenariosSmall_eval :
    runMortgageScenarios ⟨⟨1 / 200, 0, 1, ⟨2025, 1, 1⟩⟩, [], ⟨2024, 1, 1⟩⟩ [] =
      .ok ⟨⟨2024, 1, 1⟩, ⟨2025, 1, 1⟩,
        ⟨[⟨⟨2025, 1, 1⟩, 1 / 200, 0, 1 / 200, 0⟩], 0, ⟨2025, 1, 1⟩⟩,
        ⟨[], 0, ⟨2025, 1, 1⟩⟩, 0, 0, []⟩ := by
  have hbase : computeBaselineMortgage ⟨1 / 200, 0, 1, ⟨2025, 1, 1⟩⟩ =
      .ok ⟨[⟨⟨2025, 1, 1⟩, 1 / 200, 0, 1 / 200, 0⟩], 0, ⟨2025, 1, 1⟩⟩ := by
    norm_num [computeBaselineMortgage, computeMonthlyPayment, baselineLoop, addMonths,
      daysInMonth, schedEps, bind, Except.bind, pure, Except.pure]
  have hhist : computeMortgageWithPrepayments ⟨1 / 200, 0, 1, ⟨2025, 1, 1⟩⟩ [] =
      .ok ⟨[⟨⟨2025, 1, 1⟩, 1 / 200, 0, 1 / 200, 0⟩], 0, ⟨2025, 1, 1⟩⟩ := by
    norm_num [computeMortgageWithPrepayments, computeMonthlyPayment, historyLoop,
      historyStep, dueAt, notDueAt, addMonths, daysInMonth, dateLE, ISODate.key,
      schedEps, List.insertionSort, bind, Except.bind, List.takeWhile, List.dropWhile,
      pure, Except.pure]
  have hst : asOfState ⟨1 / 200, 0, 1, ⟨2025, 1, 1⟩⟩
      [⟨⟨2025, 1, 1⟩, 1 / 200, 0, 1 / 200, 0⟩] ⟨2024, 1, 1⟩ =
      .ok ⟨[], ⟨2025, 1, 1⟩, 1 / 200, 0, 0⟩ := by
    norm_num [asOfState, sliceScheduleUpTo, dateLE, ISODate.key, List.takeWhile,
      bind, Except.bind, pure, Except.pure]
  have hstop : ∀ (pay r : ℚ) (fuel step : ℕ),
      futureLoop pay r ⟨2025, 1, 1⟩ [] fuel step (1 / 200) = .ok ([], 1 / 200) := by
    intro pay r fuel step
    cases fuel with
    | zero => rfl
    | succ n =>
      rw [futureLoop, if_pos (by norm_num [futureEps])]
  have hfut : simulateFutureFromAsOf ⟨1 / 200, 0, 1, ⟨2025, 1, 1⟩⟩ (1 / 200)
      ⟨2025, 1, 1⟩ [] = .ok ⟨[], 0⟩ := by
    rw [simulateFutureFromAsOf,
      computeMonthlyPayment_eq_ok ⟨1 / 200, 0, 1, ⟨2025, 1, 1⟩⟩ (by norm_num)
        (by norm_num)]
    simp only [bind, Except.bind]
    rw [hstop]
    try dsimp only
    rw [if_neg (by norm_num [futureEps])]
    rfl
  rw [runMortgageScenarios]
  simp only [bind, Except.bind, pure, Except.pure]
  rw [hbase]
  try dsimp only
  rw [hhist]
  try dsimp only
  rw [hst]
  try dsimp only
  rw [hfut]
  try dsimp only
  norm_num [scenarioLoop]

/-- Instantiation of the as-of slicing characterisation on the concrete
one-month run: the past prefix is the set of entries on or before the as-of
date (here empty). -/
theorem asOf_slicing_spec_witness :
    ValidTerms ⟨1 / 200, 0, 1, ⟨2025, 1, 1⟩⟩ ∧
    ∃ hist st,
      computeMortgageWithPrepayments ⟨1 / 200, 0, 1, ⟨2025, 1, 1⟩⟩ [] = .ok hist ∧
      asOfState ⟨1 / 200, 0, 1, ⟨2025, 1, 1⟩⟩ hist.schedule ⟨2024, 1, 1⟩ = .ok st ∧
      st.pastSchedule =
        hist.schedule.filter (fun e => decide (dateLE e.date ⟨2024, 1, 1⟩)) := by
  have hv : ValidTerms ⟨1 / 200, 0, 1, ⟨2025, 1, 1⟩⟩ := by
    refine ⟨by norm_num, le_refl 0, by norm_num,
      by norm_num, by norm_num, by norm_num, by norm_num [daysInMonth]⟩
  obtain ⟨hist, st, hh, hs, h2, h4, h5, hfil, hemp, hlast⟩ :=
    asOf_slicing_spec ⟨⟨1 / 200, 0, 1, ⟨2025, 1, 1⟩⟩, [], ⟨2024, 1, 1⟩⟩ [] _ hv
      runScenariosSmall_eval
  exact ⟨hv, hist, st, hh, hs, hfil⟩

-- ---------- C4: the extra-principal-by-date map ----------

theorem find?_map_set (k : ISODate) (v : Money) :
    ∀ m : ExtraMap, m.any (fun e => decide (e.1 = k)) = true →
      (m.map (fun e => if e.1 = k then (k, v) else e)).find?
        (fun e => decide (e.1 = k)) = some (k, v) := by
  intro m
  induction m with
  | nil => intro h; simp at h
  | cons x xs ih =>
    intro h
    rw [List.map_cons]
    by_cases hx : x.1 = k
    · rw [if_pos hx, List.find?_cons_of_pos _ (by simp)]
    · rw [if_neg hx, List.find?_cons_of_neg _ (by simp [hx])]
      apply ih
      simp only [List.any_cons, Bool.or_eq_true, decide_eq_true_eq] at h
      rcases h with h | h
      · exact absurd h hx
      · exact h

theorem find?_append_set (k : ISODate) (v : Money) :
    ∀ m : ExtraMap, m.any (fun e => decide (e.1 = k)) = false →
      (m ++ [(k, v)]).find? (fun e => decide (e.1 = k)) = some (k, v) := by
  intro m
  induction m with
  | nil =>
    intro _
    rw [List.nil_append, List.find?_cons_of_pos _ (by simp)]
  | cons x xs ih =>
    intro h
    simp only [List.any_cons, Bool.or_eq_false_iff, decide_eq_false_iff_not] at h
    rw [List.cons_append, List.find?_cons_of_neg _ (by simp [h.1]), ih h.2]

/-- Updating a key stores exactly the written value at that key. -/
theorem mapGet_mapSet_same (m : ExtraMap) (k : ISODate) (v : Money) :
    mapGet (mapSet m k v) k = some v := by
  unfold mapGet mapSet
  by_cases hany : m.any (fun e => decide (e.1 = k)) = true
  · rw [if_pos hany, find?_map_set k v m hany]
    rfl
  · rw [if_neg hany, find?_append_set k v m (Bool.not_eq_true _ ▸ hany)]
    rfl

theorem mapSet_mem (m : ExtraMap) (k : ISODate) (v : Money) :
    ∀ e ∈ mapSet m k v, e.1 = k ∨ e ∈ m := by
  intro e he
  unfold mapSet at he
  split_ifs at he with hany
  · obtain ⟨x, hx, hxe⟩ := List.mem_map.mp he
    by_cases hx1 : x.1 = k
    · rw [if_pos hx1] at hxe
      left
      rw [← hxe]
    · rw [if_neg hx1] at hxe
      right
      rw [← hxe]
      exact hx
  · rcases List.mem_append.mp he with h | h
    · right; exact h
    · left
      rw [List.mem_singleton.mp h]

/-- Every entry `addExtra` introduces carries a date strictly after the as-of
date and at or before payoff. -/
theorem addExtra_mem (asOf payoff : ISODate) (m : ExtraMap) (d : ISODate) (a : Money) :
    ∀ e ∈ addExtra asOf payoff m d a,
      e ∈ m ∨ (asOf.key < e.1.key ∧ e.1.key ≤ payoff.key) := by
  intro e he
  unfold addExtra at he
  by_cases h1 : a ≤ 0
  · rw [if_pos h1] at he
    left; exact he
  rw [if_neg h1] at he
  by_cases h2 : dateLE d asOf
  · rw [if_pos h2] at he
    left; exact he
  rw [if_neg h2] at he
  by_cases h3 : dateLE d payoff
  · rw [if_neg (not_not_intro h3)] at he
    rcases mapSet_mem m d _ e he with h | h
    · right
      unfold dateLE at h2 h3
      rw [h]
      exact ⟨by omega, h3⟩
    · left; exact h
  · rw [if_pos h3] at he
    left; exact he

theorem addExtra_foldl_mem (asOf payoff : ISODate) :
    ∀ (cs : List (ISODate × Money)) (m : ExtraMap) e,
      e ∈ cs.foldl (fun m c => addExtra asOf payoff m c.1 c.2) m →
      e ∈ m ∨ (asOf.key < e.1.key ∧ e.1.key ≤ payoff.key) := by
  intro cs
  induction cs with
  | nil => intro m e he; left; exact he
  | cons c cs ih =>
    intro m e he
    rw [List.foldl_cons] at he
    rcases ih _ e he with h | h
    · exact addExtra_mem asOf payoff m c.1 c.2 e h
    · right; exact h

theorem buildExtraByDateMap_mem (baseline : MortgageBaselineResult)
    (context : MortgageScenarioContext) :
    ∀ (patterns : List ScenarioPattern) (m : ExtraMap) e,
      e ∈ patterns.foldl
        (fun m p =>
          if p.amount ≤ 0 then m
          else
            (patternCandidates baseline context p).foldl
              (fun m c => addExtra context.asOfDate baseline.payoffDate m c.1 c.2) m)
        m →
      e ∈ m ∨ (context.asOfDate.key < e.1.key ∧ e.1.key ≤ baseline.payoffDate.key) := by
  intro patterns
  induction patterns with
  | nil => intro m e he; left; exact he
  | cons p ps ih =>
    intro m e he
    rw [List.foldl_cons] at he
    rcases ih _ e he with h | h
    · by_cases hp : p.amount ≤ 0
      · rw [if_pos hp] at h
        left; exact h
      · rw [if_neg hp] at h
        exact addExtra_foldl_mem _ _ _ _ e h
    · right; exact h

theorem addExtra_get_pos (asOf payoff : ISODate) (m : ExtraMap) (d : ISODate)
    (a : Money) (ha : 0 < a) (h1 : ¬ dateLE d asOf) (h2 : dateLE d payoff) :
    mapGet (addExtra asOf payoff m d a) d = some ((mapGet m d).getD 0 + a) := by
  unfold addExtra
  rw [if_neg (not_le.mpr ha), if_neg h1, if_neg (not_not_intro h2)]
  exact mapGet_mapSet_same m d _

theorem addExtra_foldl_sum (asOf payoff d : ISODate)
    (h1 : ¬ dateLE d asOf) (h2 : dateLE d payoff) :
    ∀ (amounts : List Money) (m : ExtraMap), (∀ a ∈ amounts, 0 < a) →
      (mapGet (amounts.foldl (fun m a => addExtra asOf payoff m d a) m) d).getD 0 =
        (mapGet m d).getD 0 + amounts.sum := by
  intro amounts
  induction amounts with
  | nil =>
    intro m _
    rw [List.foldl_nil, List.sum_nil, add_zero]
  | cons a as ih =>
    intro m h
    rw [List.foldl_cons]
    rw [ih _ (fun x hx => h x (List.mem_cons_of_mem _ hx))]
    rw [addExtra_get_pos asOf payoff m d a (h a (List.mem_cons_self _ _)) h1 h2]
    rw [Option.getD_some, List.sum_cons]
    ring

theorem oneTime_fold_eq (baseline : MortgageBaselineResult)
    (context : MortgageScenarioContext) (d : ISODate) :
    ∀ (amounts : List Money) (m : ExtraMap), (∀ a ∈ amounts, 0 < a) →
      (amounts.map (fun a => ScenarioPattern.oneTime a d)).foldl
        (fun m p =>
          if p.amount ≤ 0 then m
          else
            (patternCandidates baseline context p).foldl
              (fun m c => addExtra context.asOfDate baseline.payoffDate m c.1 c.2) m)
        m =
      amounts.foldl (fun m a => addExtra context.asOfDate baseline.payoffDate m d a) m := by
  intro amounts
  induction amounts with
  | nil => intro m _; rfl
  | cons a as ih =>
    intro m h
    simp only [List.map_cons, List.foldl_cons, ScenarioPattern.amount]
    rw [if_neg (not_le.mpr (h a (List.mem_cons_self _ _)))]
    exact ih _ (fun x hx => h x (List.mem_cons_of_mem _ hx))

/-- **C4.**  Every key of `buildExtraByDateMap` lies strictly after the as-of
date and at or before the baseline payoff date; a pattern whose amount is
non-positive contributes nothing to the map; and several expanded
(date, amount) pairs landing on one date accumulate into the stored sum for
that date. -/
theorem buildExtraByDateMap_spec (baseline : MortgageBaselineResult)
    (context : MortgageScenarioContext) (patterns : List ScenarioPattern) :
    (∀ e ∈ buildExtraByDateMap baseline context patterns,
      context.asOfDate.key < e.1.key ∧ e.1.key ≤ baseline.payoffDate.key) ∧
    (∀ ps1 (p : ScenarioPattern) ps2, p.amount ≤ 0 →
      buildExtraByDateMap baseline context (ps1 ++ p :: ps2) =
        buildExtraByDateMap baseline context (ps1 ++ ps2)) ∧
    (∀ (d : ISODate) (amounts : List Money),
      ¬ dateLE d context.asOfDate → dateLE d baseline.payoffDate →
      (∀ a ∈ amounts, 0 < a) →
      (mapGet (buildExtraByDateMap baseline context
          (amounts.map (fun a => ScenarioPattern.oneTime a d))) d).getD 0 =
        amounts.sum) := by
  refine ⟨?_, ?_, ?_⟩
  · intro e he
    rw [buildExtraByDateMap] at he
    rcases buildExtraByDateMap_mem baseline context patterns [] e he with h | h
    · simp at h
    · exact h
  · intro ps1 p ps2 hp
    rw [buildExtraByDateMap, buildExtraByDateMap, List.foldl_append, List.foldl_append,
      List.foldl_cons]
    try dsimp only
    rw [if_pos hp]
  · intro d amounts h1 h2 hpos
    rw [buildExtraByDateMap, oneTime_fold_eq baseline context d amounts [] hpos,
      addExtra_foldl_sum context.asOfDate baseline.payoffDate d h1 h2 amounts [] hpos]
    simp [mapGet]

/-- Instantiation of the map characterisation: two one-time extras of 10 and
5 on the same eligible date are stored as the sum 15. -/
theorem buildExtraByDateMap_spec_witness :
    ¬ dateLE ⟨2026, 1, 1⟩ ⟨2025, 1, 1⟩ ∧ dateLE ⟨2026, 1, 1⟩ ⟨2030, 1, 1⟩ ∧
    (mapGet (buildExtraByDateMap ⟨[], 0, ⟨2030, 1, 1⟩⟩
        ⟨⟨1, 0, 1, ⟨2025, 1, 1⟩⟩, [], ⟨2025, 1, 1⟩⟩
        (([10, 5] : List Money).map (fun a => ScenarioPattern.oneTime a ⟨2026, 1, 1⟩)))
      ⟨2026, 1, 1⟩).getD 0 = 15 := by
  have hd1 : ¬ dateLE (⟨2026, 1, 1⟩ : ISODate) ⟨2025, 1, 1⟩ := by
    norm_num [dateLE, ISODate.key]
  have hd2 : dateLE (⟨2026, 1, 1⟩ : ISODate) ⟨2030, 1, 1⟩ := by
    norm_num [dateLE, ISODate.key]
  have h := (buildExtraByDateMap_spec ⟨[], 0, ⟨2030, 1, 1⟩⟩
      ⟨⟨1, 0, 1, ⟨2025, 1, 1⟩⟩, [], ⟨2025, 1, 1⟩⟩ []).2.2 ⟨2026, 1, 1⟩ [10, 5] hd1 hd2
      (by
        intro a ha
        simp at ha
        rcases ha with rfl | rfl <;> norm_num)
  refine ⟨hd1, hd2, ?_⟩
  rw [h]
  norm_num [List.sum_cons, List.sum_nil]

-- ---------- C10: scenario filtering ----------

/-- The per-config loop keeps exactly the active configs with at least one
pattern, in order. -/
theorem scenarioLoop_ids (context : MortgageScenarioContext)
    (baseline : MortgageBaselineResult) (st : AsOfState)
    (sched : List AmortizationEntry) (ti : Money) :
    ∀ (configs : List MortgageScenarioConfig) summaries,
      scenarioLoop context baseline st sched ti configs = .ok summaries →
      summaries.map (fun s => (s.scenarioId, s.scenarioName)) =
        (configs.filter (fun c => c.active && !c.patterns.isEmpty)).map
          (fun c => (c.id, c.name)) := by
  intro configs
  induction configs with
  | nil =>
    intro summaries h
    have h2 : _ = summaries := Except.ok.inj h
    subst h2
    rfl
  | cons c cs ih =>
    intro summaries h
    rw [scenarioLoop] at h
    by_cases hact : c.active = true
    · by_cases hpat : c.patterns.isEmpty = true
      · rw [if_neg (not_not_intro hact), if_pos hpat] at h
        rw [ih _ h, List.filter_cons_of_neg]
        simp [hact, hpat]
      · rw [if_neg (not_not_intro hact), if_neg hpat] at h
        simp only [bind, Except.bind, pure, Except.pure] at h
        rcases hf : simulateFutureFromAsOf context.terms st.remainingAtAsOf
            st.effectiveAsOf (buildExtraByDateMap baseline context c.patterns) with
          err | fut <;> rw [hf] at h
        · simp at h
        try dsimp only at h
        by_cases hemp : (st.pastSchedule ++ fut.futureSchedule).isEmpty = true
        · rw [if_pos hemp] at h
          try dsimp only at h
          rcases hrest : scenarioLoop context baseline st sched ti cs with
            err | rest <;> rw [hrest] at h
          · simp at h
          have h2 : _ = summaries := Except.ok.inj h
          subst h2
          rw [List.map_cons, ih _ hrest,
            List.filter_cons_of_pos (by simp [hact, hpat]), List.map_cons]
        · rw [if_neg hemp] at h
          try dsimp only at h
          rcases her : computeEffectiveAnnualRateFromSchedule
              (st.pastSchedule ++ fut.futureSchedule) context.terms.principal with
            err | er <;> rw [her] at h
          · simp at h
          try dsimp only at h
          rcases hrest : scenarioLoop context baseline st sched ti cs with
            err | rest <;> rw [hrest] at h
          · simp at h
          have h2 : _ = summaries := Except.ok.inj h
          subst h2
          rw [List.map_cons, ih _ hrest,
            List.filter_cons_of_pos (by simp [hact, hpat]), List.map_cons]
    · rw [if_pos hact] at h
      rw [ih _ h, List.filter_cons_of_neg]
      simp [hact]

/-- **C10.**  A successful `runMortgageScenarios` reports exactly the configs
that are active and have at least one pattern, in input order: the id/name
pairs of `result.scenarios` are the filter of the input configs by
`active && patterns nonempty`. -/
theorem scenario_filtering (context : MortgageScenarioContext)
    (configs : List MortgageScenarioConfig) (res : MortgageScenarioRunResult)
    (hok : runMortgageScenarios context configs = .ok res) :
    res.scenarios.map (fun s => (s.scenarioId, s.scenarioName)) =
      (configs.filter (fun c => c.active && !c.patterns.isEmpty)).map
        (fun c => (c.id, c.name)) := by
  obtain ⟨baseline, hist, st, fut, summaries, hb, hh, hs, hf, hsl, h1, h2, h3, h4, h5, h6⟩ :=
    runMortgageScenarios_inv context configs res hok
  rw [h6]
  exact scenarioLoop_ids context baseline st
    (st.pastSchedule ++ fut.futureSchedule)
    (st.interestSoFar + fut.totalInterestFuture) configs summaries hsl

/-- Concrete evaluation with two skipped configs: one inactive config with a
pattern and one active config without patterns produce no scenario rows. -/
theorem runScenariosSkip_eval :
    runMortgageScenarios ⟨⟨1 / 200, 0, 1, ⟨2025, 1, 1⟩⟩, [], ⟨2024, 1, 1⟩⟩
      [⟨"a", "A", false, [.oneTime 1 ⟨2026, 1, 1⟩]⟩, ⟨"b", "B", true, []⟩] =
      .ok ⟨⟨2024, 1, 1⟩, ⟨2025, 1, 1⟩,
        ⟨[⟨⟨2025, 1, 1⟩, 1 / 200, 0, 1 / 200, 0⟩], 0, ⟨2025, 1, 1⟩⟩,
        ⟨[], 0, ⟨2025, 1, 1⟩⟩, 0, 0, []⟩ := by
  have hbase : computeBaselineMortgage ⟨1 / 200, 0, 1, ⟨2025, 1, 1⟩⟩ =
      .ok ⟨[⟨⟨2025, 1, 1⟩, 1 / 200, 0, 1 / 200, 0⟩], 0, ⟨2025, 1, 1⟩⟩ := by
    norm_num [computeBaselineMortgage, computeMonthlyPayment, baselineLoop, addMonths,
      daysInMonth, schedEps, bind, Except.bind, pure, Except.pure]
  have hhist : computeMortgageWithPrepayments ⟨1 / 200, 0, 1, ⟨2025, 1, 1⟩⟩ [] =
      .ok ⟨[⟨⟨2025, 1, 1⟩, 1 / 200, 0, 1 / 200, 0⟩], 0, ⟨2025, 1, 1⟩⟩ := by
    norm_num [computeMortgageWithPrepayments, computeMonthlyPayment, historyLoop,
      historyStep, dueAt, notDueAt, addMonths, daysInMonth, dateLE, ISODate.key,
      schedEps, List.insertionSort, bind, Except.bind, List.takeWhile, List.dropWhile,
      pure, Except.pure]
  have hst : asOfState ⟨1 / 200, 0, 1, ⟨2025, 1, 1⟩⟩
      [⟨⟨2025, 1, 1⟩, 1 / 200, 0, 1 / 200, 0⟩] ⟨2024, 1, 1⟩ =
      .ok ⟨[], ⟨2025, 1, 1⟩, 1 / 200, 0, 0⟩ := by
    norm_num [asOfState, sliceScheduleUpTo, dateLE, ISODate.key, List.takeWhile,
      bind, Except.bind, pure, Except.pure]
  have hstop : ∀ (pay r : ℚ) (fuel step : ℕ),
      futureLoop pay r ⟨2025, 1, 1⟩ [] fuel step (1 / 200) = .ok ([], 1 / 200) := by
    intro pay r fuel step
    cases fuel with
    | zero => rfl
    | succ n =>
      rw [futureLoop, if_pos (by norm_num [futureEps])]
  have hfut : simulateFutureFromAsOf ⟨1 / 200, 0, 1, ⟨2025, 1, 1⟩⟩ (1 / 200)
      ⟨2025, 1, 1⟩ [] = .ok ⟨[], 0⟩ := by
    rw [simulateFutureFromAsOf,
      computeMonthlyPayment_eq_ok ⟨1 / 200, 0, 1, ⟨2025, 1, 1⟩⟩ (by norm_num)
        (by norm_num)]
    simp only [bind, Except.bind]
    rw [hstop]
    try dsimp only
    rw [if_neg (by norm_num [futureEps])]
    rfl
  rw [runMortgageScenarios]
  simp only [bind, Except.bind, pure, Except.pure]
  rw [hbase]
  try dsimp only
  rw [hhist]
  try dsimp only
  rw [hst]
  try dsimp only
  rw [hfut]
  try dsimp only
  norm_num [scenarioLoop]

/-- Instantiation of the scenario filtering on the concrete two-config run:
both configs are skipped, so the scenario list is empty like the filter. -/
theorem scenario_filtering_witness :
    ([] : List MortgageScenarioSummary).map (fun s => (s.scenarioId, s.scenarioName)) =
      (([⟨"a", "A", false, [.oneTime 1 ⟨2026, 1, 1⟩]⟩, ⟨"b", "B", true, []⟩] :
          List MortgageScenarioConfig).filter
        (fun c => c.active && !c.patterns.isEmpty)).map (fun c => (c.id, c.name)) :=
  scenario_filtering ⟨⟨1 / 200, 0, 1, ⟨2025, 1, 1⟩⟩, [], ⟨2024, 1, 1⟩⟩
    [⟨"a", "A", false, [.oneTime 1 ⟨2026, 1, 1⟩]⟩, ⟨"b", "B", true, []⟩]
    ⟨⟨2024, 1, 1⟩, ⟨2025, 1, 1⟩,
      ⟨[⟨⟨2025, 1, 1⟩, 1 / 200, 0, 1 / 200, 0⟩], 0, ⟨2025, 1, 1⟩⟩,
      ⟨[], 0, ⟨2025, 1, 1⟩⟩, 0, 0, []⟩ runScenariosSkip_eval

-- ---------- C8: the effective-rate solver ----------

/-- The bisection keeps its bracket inside the initial one and ordered. -/
theorem bisect_bracket (f : ℚ → ℚ) (npvLo : ℚ) :
    ∀ (n : ℕ) (lo hi : ℚ), lo ≤ hi →
      lo ≤ (bisect f npvLo n (lo, hi)).1 ∧
      (bisect f npvLo n (lo, hi)).1 ≤ (bisect f npvLo n (lo, hi)).2 ∧
      (bisect f npvLo n (lo, hi)).2 ≤ hi := by
  intro n
  induction n with
  | zero => intro lo hi h; exact ⟨le_refl _, h, le_refl _⟩
  | succ n ih =>
    intro lo hi h
    rw [bisect]
    try dsimp only
    have hmid1 : lo ≤ (lo + hi) / 2 := by linarith
    have hmid2 : (lo + hi) / 2 ≤ hi := by linarith
    split_ifs with h0 hsign
    · exact ⟨hmid1, le_refl _, hmid2⟩
    · obtain ⟨a, b, c⟩ := ih ((lo + hi) / 2) hi hmid2
      exact ⟨le_trans hmid1 a, b, c⟩
    · obtain ⟨a, b, c⟩ := ih lo ((lo + hi) / 2) hmid1
      exact ⟨a, b, le_trans c hmid2⟩

/-- **C8.**  The effective-rate solver errors exactly on an empty schedule or
non-positive principal; when NPV(0) and NPV(0.2) of
`[+principal, -payment_1, ...]` have the same (strict) sign it falls back to
`ok 0`; otherwise it bisects the monthly rate for 60 iterations inside
[0, 0.2] and returns the annualised `(1 + rMonthly)^12 - 1` of the bracket
midpoint. -/
theorem effectiveRate_spec (schedule : List AmortizationEntry) (principal : Money) :
    ((schedule = [] ∨ principal ≤ 0) ↔
      ∃ msg, computeEffectiveAnnualRateFromSchedule schedule principal = .error msg) ∧
    (schedule ≠ [] → 0 < principal →
      (0 < npv (principal :: schedule.map (fun e => -e.payment)) 0 *
          npv (principal :: schedule.map (fun e => -e.payment)) (1 / 5) →
        computeEffectiveAnnualRateFromSchedule schedule principal = .ok 0) ∧
      (¬ (0 < npv (principal :: schedule.map (fun e => -e.payment)) 0 *
          npv (principal :: schedule.map (fun e => -e.payment)) (1 / 5)) →
        ∃ lo hi,
          bisect (npv (principal :: schedule.map (fun e => -e.payment)))
            (npv (principal :: schedule.map (fun e => -e.payment)) 0) 60 (0, 1 / 5) =
            (lo, hi) ∧
          computeEffectiveAnnualRateFromSchedule schedule principal =
            .ok ((1 + (lo + hi) / 2) ^ 12 - 1) ∧
          0 ≤ lo ∧ lo ≤ hi ∧ hi ≤ 1 / 5)) := by
  constructor
  · constructor
    · intro h
      rcases h with rfl | hP
      · exact ⟨"Schedule is empty", by simp [computeEffectiveAnnualRateFromSchedule]⟩
      · by_cases hsch : schedule.isEmpty = true
        · refine ⟨"Schedule is empty", ?_⟩
          rw [computeEffectiveAnnualRateFromSchedule, if_pos hsch]
        · refine ⟨"principal must be positive", ?_⟩
          rw [computeEffectiveAnnualRateFromSchedule, if_neg hsch, if_pos hP]
    · rintro ⟨msg, hmsg⟩
      by_contra hcon
      push_neg at hcon
      obtain ⟨hsch, hP⟩ := hcon
      rw [computeEffectiveAnnualRateFromSchedule,
        if_neg (by simp [hsch]), if_neg (not_le.mpr hP)] at hmsg
      try dsimp only at hmsg
      split_ifs at hmsg <;> simp at hmsg
  · intro hsch hP
    constructor
    · intro hsign
      rw [computeEffectiveAnnualRateFromSchedule,
        if_neg (by simp [hsch]), if_neg (not_le.mpr hP)]
      dsimp only
      rw [if_pos hsign]
    · intro hsign
      rw [computeEffectiveAnnualRateFromSchedule,
        if_neg (by simp [hsch]), if_neg (not_le.mpr hP)]
      dsimp only
      rw [if_neg hsign]
      refine ⟨_, _, rfl, rfl, ?_⟩
      exact bisect_bracket _ _ 60 0 (1 / 5) (by norm_num)

/-- Instantiation of the solver characterisation: empty schedules error, and
a cashflow vector [1, -2] has NPV < 0 at both bracket ends, so the defined
fallback 0 is returned. -/
theorem effectiveRate_spec_witness :
    (∃ msg, computeEffectiveAnnualRateFromSchedule [] 1 = .error msg) ∧
    computeEffectiveAnnualRateFromSchedule [⟨⟨2025, 1, 1⟩, 2, 0, 2, 0⟩] 1 = .ok 0 := by
  constructor
  · exact (effectiveRate_spec [] 1).1.mp (Or.inl rfl)
  · refine ((effectiveRate_spec [⟨⟨2025, 1, 1⟩, 2, 0, 2, 0⟩] 1).2 (by simp)
      (by norm_num)).1 ?_
    norm_num [npv, List.range_succ, List.range_zero]

-- ---------- C7: the prepayment cursor and the remaining-balance cap ----------

/-- A successful history step pays the contractual amount plus exactly the
due (leading) run of the cursor, hands the rest of the cursor to the next
period, and together the consumed batch and the new cursor are the old
cursor: every prepayment is consumed at most once. -/
theorem historyStep_cursor (s : ISODate) (r pay : ℚ) (i : ℕ) (rem : ℚ)
    (pending : List PastPrepayment) (e : AmortizationEntry)
    (pending2 : List PastPrepayment)
    (hok : historyStep s r pay i rem pending = .ok (e, pending2)) :
    e.date = addMonths s i ∧
    e.payment = pay +
      ((dueAt (addMonths s i) pending).map (fun p => p.amount)).sum ∧
    pending2 = notDueAt (addMonths s i) pending ∧
    dueAt (addMonths s i) pending ++ pending2 = pending := by
  unfold historyStep at hok
  try dsimp only at hok
  by_cases hneg : pay - (if 0 < r then rem * r else 0) < 0
  · rw [if_pos hneg] at hok
    exact absurd hok (by simp)
  · rw [if_neg hneg] at hok
    have h2 := Except.ok.inj hok
    have he : _ = e := congrArg Prod.fst h2
    have hp2 : _ = pending2 := congrArg Prod.snd h2
    refine ⟨by rw [← he], by rw [← he], hp2.symm, ?_⟩
    rw [← hp2]
    unfold dueAt notDueAt
    exact List.takeWhile_append_dropWhile _ _

/-- The remaining-balance cap of a history step: when the principal component
plus the due extra would overshoot the balance, the total principal is capped
at the balance (so the new remaining is 0) and the recorded principal field
is `max 0 (remaining - extra)`; otherwise the uncapped values are recorded. -/
theorem historyStep_cap (s : ISODate) (r pay : ℚ) (i : ℕ) (rem : ℚ)
    (pending : List PastPrepayment) (e : AmortizationEntry)
    (pending2 : List PastPrepayment)
    (hok : historyStep s r pay i rem pending = .ok (e, pending2)) :
    (rem < (pay - (if 0 < r then rem * r else 0)) +
        ((dueAt (addMonths s i) pending).map (fun p => p.amount)).sum →
      e.principal = max 0 (rem -
        ((dueAt (addMonths s i) pending).map (fun p => p.amount)).sum) ∧
      e.remaining = 0) ∧
    (¬ rem < (pay - (if 0 < r then rem * r else 0)) +
        ((dueAt (addMonths s i) pending).map (fun p => p.amount)).sum →
      e.principal = pay - (if 0 < r then rem * r else 0) ∧
      e.remaining = max 0 (rem - ((pay - (if 0 < r then rem * r else 0)) +
        ((dueAt (addMonths s i) pending).map (fun p => p.amount)).sum))) := by
  unfold historyStep at hok
  try dsimp only at hok
  by_cases hneg : pay - (if 0 < r then rem * r else 0) < 0
  · rw [if_pos hneg] at hok
    exact absurd hok (by simp)
  · rw [if_neg hneg] at hok
    have h2 := Except.ok.inj hok
    have he : _ = e := congrArg Prod.fst h2
    constructor
    · intro hcap
      rw [← he]
      dsimp only
      simp only [if_pos hcap]
      simp
    · intro hcap
      rw [← he]
      dsimp only
      simp only [if_neg hcap]
      simp

/-- Consuming up to a later date equals consuming up to an earlier date and
then consuming the rest of the cursor up to the later date. -/
theorem takeWhile_le_split (d e : ISODate) (hde : d.key ≤ e.key) :
    ∀ l : List PastPrepayment,
      l.takeWhile (fun p => decide (dateLE p.date e)) =
        l.takeWhile (fun p => decide (dateLE p.date d)) ++
          (l.dropWhile (fun p => decide (dateLE p.date d))).takeWhile
            (fun p => decide (dateLE p.date e)) := by
  intro l
  induction l with
  | nil => rfl
  | cons x xs ih =>
    by_cases hx : dateLE x.date d
    · have hxe : dateLE x.date e := by
        unfold dateLE at hx ⊢
        omega
      rw [List.takeWhile_cons_of_pos (by simpa using hxe),
          List.takeWhile_cons_of_pos (by simpa using hx),
          List.dropWhile_cons_of_pos (by simpa using hx),
          List.cons_append, ih]
    · rw [List.takeWhile_cons_of_neg
            (p := fun q : PastPrepayment => decide (dateLE q.date d))
            (by simpa using hx),
          List.dropWhile_cons_of_neg (by simpa using hx),
          List.nil_append]

/-- On a date-sorted cursor the due run is the set of all pending
prepayments dated at or before the period date. -/
theorem dueAt_eq_filter_of_sorted (d : ISODate) :
    ∀ l : List PastPrepayment,
      List.Pairwise (fun a b => dateLE a.date b.date) l →
      dueAt d l = l.filter (fun p => decide (dateLE p.date d)) := by
  intro l
  induction l with
  | nil => intro _; rfl
  | cons x xs ih =>
    intro hp
    rw [List.pairwise_cons] at hp
    unfold dueAt
    by_cases hx : dateLE x.date d
    · rw [List.takeWhile_cons_of_pos (by simpa using hx),
          List.filter_cons_of_pos (by simpa using hx)]
      have hxs := ih hp.2
      unfold dueAt at hxs
      rw [hxs]
    · rw [List.takeWhile_cons_of_neg (by simpa using hx),
          List.filter_cons_of_neg (by simpa using hx)]
      symm
      rw [List.filter_eq_nil_iff]
      intro a ha
      have hle := hp.1 a ha
      simp only [decide_eq_true_eq]
      unfold dateLE at hx hle ⊢
      omega

/-- Across a successful history run, total payments exceed the contractual
ones by exactly the amounts of the cursor prefix due by the last period's
date: every such prepayment is consumed exactly once, later ones never. -/
theorem historyLoop_extras (s : ISODate) (hvs : s.Valid) (r pay : ℚ) :
    ∀ (fuel i : ℕ) (rem : ℚ) (pending : List PastPrepayment)
      (sched : List AmortizationEntry),
      historyLoop s r pay fuel i rem pending = .ok sched →
      ∀ e, sched.getLast? = some e →
        ((sched.map (fun x => x.payment)).sum : ℚ) =
          pay * sched.length +
            ((pending.takeWhile (fun p => decide (dateLE p.date e.date))).map
              (fun p => p.amount)).sum := by
  intro fuel
  induction fuel with
  | zero =>
    intro i rem pending sched hok e hlast
    have h2 : _ = sched := Except.ok.inj hok
    subst h2
    simp at hlast
  | succ fuel ih =>
    intro i rem pending sched hok e hlast
    by_cases hstop : rem ≤ schedEps
    · rw [historyLoop, if_pos hstop] at hok
      have h2 : _ = sched := Except.ok.inj hok
      subst h2
      simp at hlast
    · rw [historyLoop, if_neg hstop] at hok
      simp only [bind, Except.bind] at hok
      rcases hstep : historyStep s r pay i rem pending with err | pr
      · rw [hstep] at hok
        simp at hok
      rw [hstep] at hok
      try dsimp only at hok
      rcases hrec : historyLoop s r pay fuel (i + 1) pr.1.remaining pr.2 with err | rest
      · rw [hrec] at hok
        simp at hok
      rw [hrec] at hok
      try dsimp only at hok
      have h2 : _ = sched := Except.ok.inj hok
      subst h2
      obtain ⟨hdate, hpayE, hpend2, hsplit⟩ :=
        historyStep_cursor s r pay i rem pending pr.1 pr.2 hstep
      rcases rest with _ | ⟨f, rest2⟩
      · simp only [List.getLast?_singleton, Option.some.injEq] at hlast
        subst hlast
        simp only [List.map_cons, List.map_nil, List.sum_cons, List.sum_nil,
          List.length_cons, List.length_nil]
        rw [hpayE, hdate]
        unfold dueAt
        push_cast
        ring
      · have hlast2 : (f :: rest2).getLast? = some e := by
          simpa using hlast
        have hihres := ih (i + 1) pr.1.remaining pr.2 (f :: rest2) hrec e hlast2
        have hne : (f :: rest2) ≠ [] := by simp
        have hmem : e ∈ f :: rest2 := by
          rw [List.getLast?_eq_getLast _ hne, Option.some.injEq] at hlast2
          rw [← hlast2]
          exact List.getLast_mem hne
        obtain ⟨k, hk⟩ := List.mem_iff_get.mp hmem
        have hdk := historyLoop_dates s r pay fuel (i + 1) pr.1.remaining pr.2
          (f :: rest2) hrec k.val k.isLt
        have hedate : e.date = addMonths s ((i + 1 + k.val : ℕ) : Int) := by
          rw [← hk]
          exact hdk
        have hkey : (addMonths s (i : Int)).key ≤ e.date.key := by
          rw [hedate]
          exact (addMonths_key_strictMono s hvs).monotone (by push_cast; omega)
        have hTW := takeWhile_le_split (addMonths s (i : Int)) e.date hkey pending
        rw [List.map_cons, List.sum_cons, hihres, hpayE, hTW, List.map_append,
          List.sum_append, hpend2]
        unfold dueAt notDueAt
        simp only [List.length_cons]
        push_cast
        ring

/-- **C7.**  In `computeMortgageWithPrepayments`: (1) across the whole
schedule the payments exceed the contractual ones by exactly the amounts of
the date-sorted log's prefix due by the final period — each historical
prepayment is consumed exactly once, and ones dated later than the payoff
are never consumed; (2) at each period the extra equals the sum of the
not-yet-consumed (sorted) prepayments dated on or before that period's date,
and the consumed batch plus the new cursor reassemble the old one; (3) when
principal plus extra would exceed the balance, the total principal is capped
at the balance (new remaining 0) and the recorded principal is
`max 0 (remaining - extra)`; otherwise the uncapped values are recorded. -/
theorem prepayment_cursor_spec :
    (∀ (t : MortgageOriginalTerms) (prepays : PastPrepaymentLog)
        (res : MortgageHistoryResult), ValidTerms t →
      computeMortgageWithPrepayments t prepays = .ok res →
      ∀ e, res.schedule.getLast? = some e →
        ((res.schedule.map (fun x => x.payment)).sum : ℚ) =
          monthlyPaymentQ t * res.schedule.length +
            (((prepays.insertionSort (fun a b => dateLE a.date b.date)).takeWhile
              (fun p => decide (dateLE p.date e.date))).map (fun p => p.amount)).sum) ∧
    (∀ (s : ISODate) (r pay : ℚ) (i : ℕ) (rem : ℚ)
        (pending : List PastPrepayment) (e : AmortizationEntry)
        (pending2 : List PastPrepayment),
      List.Pairwise (fun a b : PastPrepayment => dateLE a.date b.date) pending →
      historyStep s r pay i rem pending = .ok (e, pending2) →
      e.payment = pay +
        ((pending.filter (fun p => decide (dateLE p.date (addMonths s i)))).map
          (fun p => p.amount)).sum ∧
      dueAt (addMonths s i) pending ++ pending2 = pending) ∧
    (∀ (s : ISODate) (r pay : ℚ) (i : ℕ) (rem : ℚ)
        (pending : List PastPrepayment) (e : AmortizationEntry)
        (pending2 : List PastPrepayment),
      historyStep s r pay i rem pending = .ok (e, pending2) →
      (rem < (pay - (if 0 < r then rem * r else 0)) +
          ((dueAt (addMonths s i) pending).map (fun p => p.amount)).sum →
        e.principal = max 0 (rem -
          ((dueAt (addMonths s i) pending).map (fun p => p.amount)).sum) ∧
        e.remaining = 0) ∧
      (¬ rem < (pay - (if 0 < r then rem * r else 0)) +
          ((dueAt (addMonths s i) pending).map (fun p => p.amount)).sum →
        e.principal = pay - (if 0 < r then rem * r else 0) ∧
        e.remaining = max 0 (rem - ((pay - (if 0 < r then rem * r else 0)) +
          ((dueAt (addMonths s i) pending).map (fun p => p.amount)).sum)))) := by
  refine ⟨?_, ?_, ?_⟩
  · intro t prepays res hv hok e hlast
    obtain ⟨hP, hr, hn0, hvs⟩ := hv
    have hn := Nat.pos_iff_ne_zero.mp hn0
    obtain ⟨hloopEq, _, _⟩ :=
      computeMortgageWithPrepayments_inv t prepays res hP hn hok
    exact historyLoop_extras t.startDate hvs (t.annualRate / 12) (monthlyPaymentQ t)
      t.termMonths 0 t.principal
      (prepays.insertionSort (fun a b => dateLE a.date b.date)) res.schedule
      hloopEq e hlast
  · intro s r pay i rem pending e pending2 hsorted hok
    obtain ⟨hdate, hpayE, hpend2, hsplit⟩ :=
      historyStep_cursor s r pay i rem pending e pending2 hok
    refine ⟨?_, hsplit⟩
    rw [hpayE, ← dueAt_eq_filter_of_sorted (addMonths s i) pending hsorted]
  · intro s r pay i rem pending e pending2 hok
    exact historyStep_cap s r pay i rem pending e pending2 hok

/-- Instantiation of the cursor characterisation on the concrete 3-month run
with a 50 prepayment: payments total 350 = 3 payments of 100 plus the one
consumed prepayment. -/
theorem prepayment_cursor_spec_witness :
    ValidTerms ⟨300, 0, 3, ⟨2025, 1, 1⟩⟩ ∧
    (([⟨⟨2025, 1, 1⟩, 100, 0, 100, 200⟩,
        ⟨⟨2025, 2, 1⟩, 150, 0, 100, 50⟩,
        ⟨⟨2025, 3, 1⟩, 100, 0, 50, 0⟩] : List AmortizationEntry).map
          (fun x => x.payment)).sum =
      monthlyPaymentQ ⟨300, 0, 3, ⟨2025, 1, 1⟩⟩ *
        (([⟨⟨2025, 1, 1⟩, 100, 0, 100, 200⟩,
           ⟨⟨2025, 2, 1⟩, 150, 0, 100, 50⟩,
           ⟨⟨2025, 3, 1⟩, 100, 0, 50, 0⟩] : List AmortizationEntry).length : ℚ) +
        (((([⟨⟨2025, 2, 1⟩, 50⟩] : PastPrepaymentLog).insertionSort
            (fun a b => dateLE a.date b.date)).takeWhile
            (fun p => decide (dateLE p.date ⟨2025, 3, 1⟩))).map
          (fun p => p.amount)).sum := by
  have hv : ValidTerms ⟨300, 0, 3, ⟨2025, 1, 1⟩⟩ := by
    refine ⟨by norm_num, le_refl 0, by norm_num,
      by norm_num, by norm_num, by norm_num, by norm_num [daysInMonth]⟩
  refine ⟨hv, ?_⟩
  exact prepayment_cursor_spec.1 ⟨300, 0, 3, ⟨2025, 1, 1⟩⟩ [⟨⟨2025, 2, 1⟩, 50⟩] _ hv
    histSmall_eval ⟨⟨2025, 3, 1⟩, 100, 0, 50, 0⟩ rfl

-- ---------- C9: prepayment dominance ----------

/-- Baseline interest is a sum of non-negative terms. -/
theorem baselineLoop_interest_sum_nonneg (s : ISODate) (r pay : ℚ) (hr : 0 ≤ r) :
    ∀ (fuel i : ℕ) (rem : ℚ), 0 ≤ rem →
      0 ≤ ((baselineLoop s r pay fuel i rem).map (fun e => e.interest)).sum := by
  intro fuel
  induction fuel with
  | zero => intro i rem h; simp [baselineLoop]
  | succ fuel ih =>
    intro i rem h
    by_cases hstop : rem ≤ schedEps
    · rw [baselineLoop, if_pos hstop]
      simp
    · rw [baselineLoop, if_neg hstop]
      dsimp only
      simp only [List.map_cons, List.sum_cons]
      have h1 : 0 ≤ (if 0 < r then rem * r else 0) := by
        split_ifs with h0
        · exact mul_nonneg h h0.le
        · exact le_refl 0
      have h2 := ih (i + 1)
        (max 0 (rem - (pay - (if 0 < r then rem * r else 0)))) (le_max_left _ _)
      linarith

/-- A sharper remaining bound for a history step with positive rate: the new
balance is at most the uncapped contractual balance minus this period's
extra. -/
theorem historyStep_remaining_extra (s : ISODate) (r pay : ℚ) (i : ℕ) (rem : ℚ)
    (pending : List PastPrepayment) (e : AmortizationEntry)
    (pending2 : List PastPrepayment) (hrpos : 0 < r)
    (hok : historyStep s r pay i rem pending = .ok (e, pending2)) :
    e.remaining ≤ max 0 (rem * (1 + r) - pay - (e.payment - pay)) := by
  unfold historyStep at hok
  try dsimp only at hok
  by_cases hneg : pay - (if 0 < r then rem * r else 0) < 0
  · rw [if_pos hneg] at hok
    exact absurd hok (by simp)
  · rw [if_neg hneg] at hok
    have h2 := Except.ok.inj hok
    have he : _ = e := congrArg Prod.fst h2
    rw [← he]
    dsimp only
    simp only [if_pos hrpos]
    by_cases hcap : rem < pay - rem * r +
        ((dueAt (addMonths s i) pending).map (fun p => p.amount)).sum
    · simp only [if_pos hcap]
      have : rem - rem = 0 := sub_self rem
      rw [this, max_self]
      exact le_max_left _ _
    · simp only [if_neg hcap]
      apply le_of_eq
      congr 1
      ring

/-- Coupling of the history loop with the baseline loop from a dominated
balance: the history schedule is never longer and never accrues more
interest; with a positive rate the comparison is strict as soon as the
balances diverge while the history loop is still running, in particular
right after a period that consumed a positive extra and was not the last. -/
theorem historyLoop_dominance (s : ISODate) (r pay : ℚ) (hr : 0 ≤ r) :
    ∀ (fuel i : ℕ) (remH remB : ℚ) (pending : List PastPrepayment),
      0 ≤ remH → remH ≤ remB → r * remB ≤ pay →
      (∀ p ∈ pending, 0 ≤ p.amount) →
      ∀ schedH, historyLoop s r pay fuel i remH pending = .ok schedH →
        (schedH.length ≤ (baselineLoop s r pay fuel i remB).length ∧
          (schedH.map (fun e => e.interest)).sum ≤
            ((baselineLoop s r pay fuel i remB).map (fun e => e.interest)).sum) ∧
        (0 < r → 0 < fuel → schedEps < remH → remH < remB →
          (schedH.map (fun e => e.interest)).sum <
            ((baselineLoop s r pay fuel i remB).map (fun e => e.interest)).sum) ∧
        (0 < r →
          ∀ (j : ℕ) (e f : AmortizationEntry), schedH[j]? = some e →
            schedH[j + 1]? = some f → pay < e.payment →
          (schedH.map (fun e => e.interest)).sum <
            ((baselineLoop s r pay fuel i remB).map (fun e => e.interest)).sum) := by
  intro fuel
  induction fuel with
  | zero =>
    intro i remH remB pending h0 hHB hrB hpend schedH hok
    have h2 : _ = schedH := Except.ok.inj hok
    subst h2
    refine ⟨⟨by simp [baselineLoop], by simp [baselineLoop]⟩, ?_, ?_⟩
    · intro _ hfuel _ _
      exact absurd hfuel (lt_irrefl 0)
    · intro _ j e f hj _ _
      simp at hj
  | succ fuel ih =>
    intro i remH remB pending h0 hHB hrB hpend schedH hok
    by_cases hstop : remH ≤ schedEps
    · rw [historyLoop, if_pos hstop] at hok
      have h2 : _ = schedH := Except.ok.inj hok
      subst h2
      refine ⟨⟨by simp, ?_⟩, ?_, ?_⟩
      · simpa using baselineLoop_interest_sum_nonneg s r pay hr (fuel + 1) i remB
          (le_trans h0 hHB)
      · intro _ _ heps _
        exact absurd heps (not_lt.mpr hstop)
      · intro _ j e f hj _ _
        simp at hj
    · rw [historyLoop, if_neg hstop] at hok
      simp only [bind, Except.bind] at hok
      rcases hstep : historyStep s r pay i remH pending with err | pr
      · rw [hstep] at hok
        simp at hok
      rw [hstep] at hok
      try dsimp only at hok
      rcases hrec : historyLoop s r pay fuel (i + 1) pr.1.remaining pr.2 with err | rest
      · rw [hrec] at hok
        simp at hok
      rw [hrec] at hok
      try dsimp only at hok
      have h2 : _ = schedH := Except.ok.inj hok
      subst h2
      have hprH : r * remH ≤ pay := le_trans (mul_le_mul_of_nonneg_left hHB hr) hrB
      obtain ⟨e0, hstepeq, hdate0, hpayE0, hintE0, h00, hlerem0, hphi0, hpayle0,
        hip0, hcond0⟩ := historyStep_spec s r pay i remH pending hr h0 hprH hpend
      rw [hstep] at hstepeq
      have hpr1 : pr.1 = e0 := congrArg Prod.fst (Except.ok.inj hstepeq)
      have hpr2 : pr.2 = notDueAt (addMonths s i) pending :=
        congrArg Prod.snd (Except.ok.inj hstepeq)
      have hstopB : ¬ remB ≤ schedEps := fun hc => hstop (le_trans hHB hc)
      rw [baselineLoop, if_neg hstopB]
      try dsimp only
      set iB := (if 0 < r then remB * r else 0) with hiB
      set remB2 := max 0 (remB - (pay - iB)) with hremB2
      have hiB0 : 0 ≤ iB := by
        rw [hiB]
        split_ifs with h0r
        · exact mul_nonneg (le_trans h0 hHB) h0r.le
        · exact le_refl 0
      have hremB20 : 0 ≤ remB2 := le_max_left _ _
      have hremB2le : remB2 ≤ remB := by
        rw [hremB2]
        apply max_le (le_trans h0 hHB)
        have : iB ≤ pay := by
          rw [hiB]
          split_ifs with h0r
          · calc remB * r = r * remB := mul_comm _ _
              _ ≤ pay := hrB
          · exact le_trans (mul_nonneg hr (le_trans h0 hHB)) hrB
        linarith
      have hrB2 : r * remB2 ≤ pay := le_trans (mul_le_mul_of_nonneg_left hremB2le hr) hrB
      have hcouple : pr.1.remaining ≤ remB2 := by
        rw [hpr1]
        refine le_trans hphi0 ?_
        rw [hremB2, hiB]
        apply max_le_max (le_refl 0)
        split_ifs with h0r
        · have hmul : remH * r ≤ remB * r := mul_le_mul_of_nonneg_right hHB h0r.le
          nlinarith
        · have hr0 : r = 0 := le_antisymm (not_lt.mp h0r) hr
          rw [hr0]
          linarith
      have hpend2 : ∀ p ∈ pr.2, 0 ≤ p.amount := by
        rw [hpr2]
        exact notDueAt_nonneg _ _ hpend
      have hrem10 : 0 ≤ pr.1.remaining := by
        rw [hpr1]
        exact h00
      obtain ⟨⟨ihlen, ihsum⟩, ihstrict, ihidx⟩ :=
        ih (i + 1) pr.1.remaining remB2 pr.2 hrem10 hcouple hrB2 hpend2 rest hrec
      have hheadle : pr.1.interest ≤ iB := by
        rw [hpr1, hintE0, hiB]
        split_ifs with h0r
        · exact mul_le_mul_of_nonneg_right hHB h0r.le
        · exact le_refl 0
      refine ⟨⟨?_, ?_⟩, ?_, ?_⟩
      · simp only [List.length_cons]
        exact Nat.succ_le_succ ihlen
      · simp only [List.map_cons, List.sum_cons]
        try dsimp only
        linarith [ihsum, hheadle]
      · intro hr0 hfuel heps hlt
        have hheadlt : pr.1.interest < iB := by
          rw [hpr1, hintE0, hiB]
          simp only [if_pos hr0]
          exact mul_lt_mul_of_pos_right hlt hr0
        simp only [List.map_cons, List.sum_cons]
        try dsimp only
        linarith [ihsum, hheadlt]
      · intro hr0 j e f hj hf hp
        rcases j with _ | j2
        · simp only [List.getElem?_cons_zero, Option.some.injEq] at hj
          subst hj
          simp only [List.getElem?_cons_succ] at hf
          rcases rest with _ | ⟨f0, rest2⟩
          · simp at hf
          · rcases fuel with _ | fuel2
            · have habs := Except.ok.inj hrec
              simp at habs
            · by_cases hstop2 : pr.1.remaining ≤ schedEps
              · rw [historyLoop, if_pos hstop2] at hrec
                have habs := Except.ok.inj hrec
                simp at habs
              · have hextra : 0 < pr.1.payment - pay := by linarith
                have hsharp := historyStep_remaining_extra s r pay i remH pending
                  pr.1 pr.2 hr0 hstep
                have hpos : 0 < pr.1.remaining :=
                  lt_trans schedEps_pos (not_le.mp hstop2)
                have hXpos : pr.1.remaining ≤
                    remH * (1 + r) - pay - (pr.1.payment - pay) := by
                  rcases le_or_lt (remH * (1 + r) - pay - (pr.1.payment - pay)) 0 with
                    hc | hc
                  · rw [max_eq_left hc] at hsharp
                    linarith
                  · rw [max_eq_right hc.le] at hsharp
                    exact hsharp
                have hBB : remH * (1 + r) - pay ≤ remB2 := by
                  rw [hremB2, hiB]
                  simp only [if_pos hr0]
                  have hmul : remH * r ≤ remB * r :=
                    mul_le_mul_of_nonneg_right hHB hr0.le
                  refine le_max_of_le_right ?_
                  linarith
                have hlt2 : pr.1.remaining < remB2 := by linarith
                have hstrict := ihstrict hr0 (by omega) (not_le.mp hstop2) hlt2
                simp only [List.map_cons, List.sum_cons] at hstrict ⊢
                try dsimp only
                linarith [hheadle, hstrict]
        · simp only [List.getElem?_cons_succ] at hj hf
          have hstrict := ihidx hr0 j2 e f hj hf hp
          simp only [List.map_cons, List.sum_cons]
          try dsimp only
          linarith [hheadle, hstrict]

/-- Concrete evaluation of the baseline on the zero-rate 3-month loan. -/
theorem baseline300_eval :
    computeBaselineMortgage ⟨300, 0, 3, ⟨2025, 1, 1⟩⟩ =
      .ok ⟨[⟨⟨2025, 1, 1⟩, 100, 0, 100, 200⟩,
            ⟨⟨2025, 2, 1⟩, 100, 0, 100, 100⟩,
            ⟨⟨2025, 3, 1⟩, 100, 0, 100, 0⟩], 0, ⟨2025, 3, 1⟩⟩ := by
  norm_num [computeBaselineMortgage, computeMonthlyPayment, baselineLoop, addMonths,
    daysInMonth, schedEps, bind, Except.bind, pure, Except.pure]

/-- **C9, counterexample.**  With a zero rate both total interests are 0, so
the claimed strict inequality fails even for a valid loan and a non-empty,
all-positive prepayment log whose payment is consumed mid-schedule. -/
theorem prepayment_dominance_counterexample :
    ValidTerms ⟨300, 0, 3, ⟨2025, 1, 1⟩⟩ ∧
    ([⟨⟨2025, 2, 1⟩, 50⟩] : PastPrepaymentLog) ≠ [] ∧
    (∀ p ∈ ([⟨⟨2025, 2, 1⟩, 50⟩] : PastPrepaymentLog), 0 < p.amount) ∧
    ∃ hres bres,
      computeMortgageWithPrepayments ⟨300, 0, 3, ⟨2025, 1, 1⟩⟩
        [⟨⟨2025, 2, 1⟩, 50⟩] = .ok hres ∧
      computeBaselineMortgage ⟨300, 0, 3, ⟨2025, 1, 1⟩⟩ = .ok bres ∧
      ¬ hres.totalInterest < bres.totalInterest := by
  refine ⟨⟨by norm_num, le_refl 0, by norm_num,
      by norm_num, by norm_num, by norm_num, by norm_num [daysInMonth]⟩,
    by simp, ?_, _, _, histSmall_eval, baseline300_eval, ?_⟩
  · intro p hp
    have hp2 := List.mem_singleton.mp hp
    subst hp2
    norm_num
  · norm_num

/-- **C9, amended.**  With valid terms and non-negative prepayment amounts
the prepayment schedule is never longer than the baseline and never accrues
more total interest.  The inequality is strict under the conditions the
counterexample shows are needed: a positive rate, and some prepayment
actually consumed before the final period (a non-final entry whose payment
exceeds the contractual monthly payment). -/
theorem prepayment_dominance_amended :
    (∀ (t : MortgageOriginalTerms) (prepays : PastPrepaymentLog)
        (hres : MortgageHistoryResult) (bres : MortgageBaselineResult),
      ValidTerms t → (∀ p ∈ prepays, 0 ≤ p.amount) →
      computeMortgageWithPrepayments t prepays = .ok hres →
      computeBaselineMortgage t = .ok bres →
      hres.schedule.length ≤ bres.schedule.length ∧
      hres.totalInterest ≤ bres.totalInterest) ∧
    (∀ (t : MortgageOriginalTerms) (prepays : PastPrepaymentLog)
        (hres : MortgageHistoryResult) (bres : MortgageBaselineResult),
      ValidTerms t → (∀ p ∈ prepays, 0 ≤ p.amount) → 0 < t.annualRate →
      computeMortgageWithPrepayments t prepays = .ok hres →
      computeBaselineMortgage t = .ok bres →
      (∃ (j : ℕ) (e f : AmortizationEntry), hres.schedule[j]? = some e ∧
        hres.schedule[j + 1]? = some f ∧ monthlyPaymentQ t < e.payment) →
      hres.totalInterest < bres.totalInterest) := by
  constructor
  · intro t prepays hres bres hv hpre hh hb
    obtain ⟨hP, hr, hn0, hvs⟩ := hv
    have hn := Nat.pos_iff_ne_zero.mp hn0
    obtain ⟨hloopH, htiH, _⟩ :=
      computeMortgageWithPrepayments_inv t prepays hres hP hn hh
    obtain ⟨hschedB, htiB, _⟩ := computeBaselineMortgage_inv t bres hP hn hb
    have hr12 : (0:ℚ) ≤ t.annualRate / 12 := by positivity
    have hrP : t.annualRate / 12 * t.principal ≤ monthlyPaymentQ t := by
      rcases eq_or_lt_of_le hr12 with h0 | hpos
      · rw [← h0, zero_mul]
        exact (monthlyPaymentQ_pos t hP hr hn).le
      · exact (rate_mul_principal_lt_payment t hP hpos hn).le
    have hpend : ∀ p ∈ prepays.insertionSort (fun a b => dateLE a.date b.date),
        0 ≤ p.amount := fun p hp => hpre p ((List.mem_insertionSort _).mp hp)
    obtain ⟨⟨hlen, hsum⟩, _, _⟩ :=
      historyLoop_dominance t.startDate (t.annualRate / 12) (monthlyPaymentQ t) hr12
        t.termMonths 0 t.principal t.principal
        (prepays.insertionSort (fun a b => dateLE a.date b.date)) hP.le le_rfl hrP
        hpend hres.schedule hloopH
    constructor
    · rw [hschedB]
      exact hlen
    · rw [htiH, htiB, hschedB]
      exact hsum
  · intro t prepays hres bres hv hpre hrate hh hb hex
    obtain ⟨hP, hr, hn0, hvs⟩ := hv
    have hn := Nat.pos_iff_ne_zero.mp hn0
    obtain ⟨hloopH, htiH, _⟩ :=
      computeMortgageWithPrepayments_inv t prepays hres hP hn hh
    obtain ⟨hschedB, htiB, _⟩ := computeBaselineMortgage_inv t bres hP hn hb
    have hr12 : (0:ℚ) ≤ t.annualRate / 12 := by positivity
    have hr0 : (0:ℚ) < t.annualRate / 12 := by positivity
    have hrP : t.annualRate / 12 * t.principal ≤ monthlyPaymentQ t :=
      (rate_mul_principal_lt_payment t hP hr0 hn).le
    have hpend : ∀ p ∈ prepays.insertionSort (fun a b => dateLE a.date b.date),
        0 ≤ p.amount := fun p hp => hpre p ((List.mem_insertionSort _).mp hp)
    obtain ⟨_, _, hidx⟩ :=
      historyLoop_dominance t.startDate (t.annualRate / 12) (monthlyPaymentQ t) hr12
        t.termMonths 0 t.principal t.principal
        (prepays.insertionSort (fun a b => dateLE a.date b.date)) hP.le le_rfl hrP
        hpend hres.schedule hloopH
    obtain ⟨j, e, f, hj, hf, hp⟩ := hex
    have hlt := hidx hr0 j e f hj hf hp
    rw [htiH, htiB, hschedB]
    exact hlt

/-- Concrete evaluation of the history amortizer on a 2-month loan at 100%
monthly rate with a prepayment of 1 consumed in the first period. -/
theorem histRate_eval :
    computeMortgageWithPrepayments ⟨3, 12, 2, ⟨2025, 1, 1⟩⟩ [⟨⟨2025, 1, 1⟩, 1⟩] =
      .ok ⟨[⟨⟨2025, 1, 1⟩, 5, 3, 1, 1⟩, ⟨⟨2025, 2, 1⟩, 4, 1, 1, 0⟩], 4,
        ⟨2025, 2, 1⟩⟩ := by
  norm_num [computeMortgageWithPrepayments, computeMonthlyPayment, historyLoop,
    historyStep, dueAt, notDueAt, addMonths, daysInMonth, dateLE, ISODate.key,
    schedEps, List.insertionSort, List.orderedInsert, bind, Except.bind,
    List.takeWhile, List.dropWhile, pure, Except.pure]

/-- Concrete evaluation of the baseline on the same loan. -/
theorem baseRate_eval :
    computeBaselineMortgage ⟨3, 12, 2, ⟨2025, 1, 1⟩⟩ =
      .ok ⟨[⟨⟨2025, 1, 1⟩, 4, 3, 1, 2⟩, ⟨⟨2025, 2, 1⟩, 4, 2, 2, 0⟩], 5,
        ⟨2025, 2, 1⟩⟩ := by
  norm_num [computeBaselineMortgage, computeMonthlyPayment, baselineLoop, addMonths,
    daysInMonth, schedEps, bind, Except.bind, pure, Except.pure]

/-- Instantiation of the amended dominance: at 100% monthly rate a prepayment
of 1 in month one saves interest strictly (4 < 5). -/
theorem prepayment_dominance_amended_witness :
    ValidTerms ⟨3, 12, 2, ⟨2025, 1, 1⟩⟩ ∧ (0 : ℚ) < 12 ∧
    ((⟨[⟨⟨2025, 1, 1⟩, 5, 3, 1, 1⟩, ⟨⟨2025, 2, 1⟩, 4, 1, 1, 0⟩], 4, ⟨2025, 2, 1⟩⟩ :
        MortgageHistoryResult).totalInterest <
      (⟨[⟨⟨2025, 1, 1⟩, 4, 3, 1, 2⟩, ⟨⟨2025, 2, 1⟩, 4, 2, 2, 0⟩], 5, ⟨2025, 2, 1⟩⟩ :
        MortgageBaselineResult).totalInterest) := by
  have hv : ValidTerms ⟨3, 12, 2, ⟨2025, 1, 1⟩⟩ := by
    refine ⟨by norm_num, by norm_num, by norm_num,
      by norm_num, by norm_num, by norm_num, by norm_num [daysInMonth]⟩
  refine ⟨hv, by norm_num, ?_⟩
  refine prepayment_dominance_amended.2 ⟨3, 12, 2, ⟨2025, 1, 1⟩⟩ [⟨⟨2025, 1, 1⟩, 1⟩]
    _ _ hv ?_ (by norm_num) histRate_eval baseRate_eval
    ⟨0, ⟨⟨2025, 1, 1⟩, 5, 3, 1, 1⟩, ⟨⟨2025, 2, 1⟩, 4, 1, 1, 0⟩, rfl, rfl, ?_⟩
  · intro p hp
    have hp2 := List.mem_singleton.mp hp
    subst hp2
    norm_num
  · norm_num [monthlyPaymentQ]
